import Mathlib

/-!
Verification of the DSTU 4145-2002 + ML-DSA-44 hybrid signature implementation.

This file gives a shallow embedding, in Lean 4, of the Python sources
`dstu4145/field.py`, `dstu4145/curve.py`, `dstu4145/signature.py`,
`mldsa/wrapper.py` and `hybrid.py`.

Representation conventions:
* A field element of GF(2^m) is stored in the source as a numpy bit array of
  length m with index i holding the coefficient of t^i.  Here it is a `Nat`
  whose i-th bit (`Nat.testBit`) is that coefficient; the canonical-form
  invariant of the source (all indices ≥ m are absent) becomes `a < 2 ^ m`.
* Byte strings are `List Nat` with entries < 256.
* Python exceptions are `Except` errors; `None` is `Option.none`.
* The retry loops of the source draw from `secrets`; they are modelled by an
  explicit list of random draws passed to the operation.
-/

set_option maxRecDepth 4000000
set_option exponentiation.threshold 300

namespace DSTU

/-! ## dstu4145/field.py -/

/-- The reduction polynomial of `GF2mField.__init__`: a trinomial `(m, k)`
meaning t^m + t^k + 1, or a pentanomial `(m, k, j, l)` meaning
t^m + t^k + t^j + t^l + 1 (the leading degree m is kept in the field). -/
inductive ReductionPoly where
  | trinomial (k : Nat)
  | pentanomial (k j l : Nat)
deriving DecidableEq

/-- The field GF(2^m) with polynomial basis, from `field.py` (`GF2mField`). -/
structure GF2mField where
  m : Nat
  poly : ReductionPoly
deriving DecidableEq

namespace GF2mField

/-- The low part of the reduction polynomial, i.e. f(t) - t^m, as a bit mask.
In `GF2mField.multiply` the source flips, one after the other, the result bits
at index 0 and k (trinomial) or 0, l, j, k (pentanomial); flipping a bit is
XOR with the corresponding power of two, so the whole reduction step is XOR
with this constant. -/
def red (F : GF2mField) : Nat :=
  match F.poly with
  | .trinomial k => 1 ^^^ (1 <<< k)
  | .pentanomial k j l => 1 ^^^ (1 <<< l) ^^^ (1 <<< j) ^^^ (1 <<< k)

/-- `element_from_int`: bits i of the input for 0 ≤ i < m; higher bits are
discarded.  As a number that is exactly the remainder modulo 2^m. -/
def element_from_int (F : GF2mField) (value : Nat) : Nat :=
  value % 2 ^ F.m

/-- `element_to_int`: the integer with bit i equal to entry i of the array,
for 0 ≤ i < m. -/
def element_to_int (F : GF2mField) (element : Nat) : Nat :=
  element % 2 ^ F.m

/-- The zero element (`GF2mField.zero`). -/
def zero (_F : GF2mField) : Nat := 0

/-- The one element (`GF2mField.one` = `element_from_int 1`). -/
def one (F : GF2mField) : Nat := element_from_int F 1

/-- `is_zero`: `not np.any(a)`. -/
def is_zero (_F : GF2mField) (a : Nat) : Bool := a == 0

/-- `GF2mField.add`: bitwise XOR. -/
def add (_F : GF2mField) (a b : Nat) : Nat := a ^^^ b

/-- One round of the shift in `GF2mField.multiply`: `temp_b` is rolled left by
one position, the vacated index 0 is cleared (so the old top bit drops out),
and if the old top bit (index m-1) was set, the reduction constant is XORed
in. -/
def mulStep (F : GF2mField) (t : Nat) : Nat :=
  let shifted := (2 * t) % 2 ^ F.m
  if t.testBit (F.m - 1) then shifted ^^^ F.red else shifted

/-- The loop of `GF2mField.multiply`: at round i, if bit i of `a` is set the
current `temp_b` is XORed into the accumulator, and then `temp_b` is shifted
and reduced.  `fuel` counts the remaining rounds (the source runs exactly m
rounds). -/
def mulAux (F : GF2mField) (a : Nat) : Nat → Nat → Nat → Nat → Nat
  | 0, _, acc, _ => acc
  | fuel + 1, i, acc, t =>
      mulAux F a fuel (i + 1) (if a.testBit i then acc ^^^ t else acc) (mulStep F t)

/-- `GF2mField.multiply`: shift-and-XOR product modulo the reduction
polynomial, m rounds. -/
def multiply (F : GF2mField) (a b : Nat) : Nat :=
  mulAux F a F.m 0 0 b

/-- `GF2mField.square`: `multiply a a`. -/
def square (F : GF2mField) (a : Nat) : Nat := multiply F a a

/-- The `while n > 0` loop of `GF2mField.power`; `fuel` bounds the number of
iterations (the loop halves the exponent each round, so `fuel = e` is always
enough). -/
def powAux (F : GF2mField) : Nat → Nat → Nat → Nat → Nat
  | 0, _, result, _ => result
  | fuel + 1, e, result, base =>
      if e = 0 then result
      else powAux F fuel (e / 2)
        (if e % 2 = 1 then multiply F result base else result) (square F base)

/-- `GF2mField.power`: binary exponentiation, with the special cases n = 0
(returns one) and n = 1 (returns a copy of the argument) of the source. -/
def power (F : GF2mField) (a : Nat) (n : Nat) : Nat :=
  if n = 0 then element_from_int F 1
  else if n = 1 then a
  else powAux F n n (element_from_int F 1) a

/-- `GF2mField.inverse`: `None` for zero, otherwise a^(2^m - 2). -/
def inverse (F : GF2mField) (a : Nat) : Option Nat :=
  if a = 0 then none
  else some (power F a (2 ^ F.m - 2))

/-- The loop of `GF2mField.trace`: m - 1 rounds of squaring `temp` and XORing
it into `result`. -/
def traceAux (F : GF2mField) : Nat → Nat → Nat → Nat
  | 0, result, _ => result
  | k + 1, result, temp =>
      let temp2 := square F temp
      traceAux F k (result ^^^ temp2) temp2

/-- The field element accumulated by `GF2mField.trace` before the final
projection: a + a^2 + a^4 + ... + a^(2^(m-1)). -/
def trSum (F : GF2mField) (a : Nat) : Nat := traceAux F (F.m - 1) a a

/-- `GF2mField.trace`: `int(result[0])`, the low bit of the accumulated
element. -/
def trace (F : GF2mField) (a : Nat) : Nat := trSum F a % 2

/-- The loop of `GF2mField.half_trace`: (m-1)/2 rounds, each squaring `temp`
twice and XORing it in. -/
def htrAux (F : GF2mField) : Nat → Nat → Nat → Nat
  | 0, result, _ => result
  | k + 1, result, temp =>
      let temp4 := square F (square F temp)
      htrAux F k (result ^^^ temp4) temp4

/-- `GF2mField.half_trace`: raises for even m, otherwise
a + a^4 + a^16 + ... . -/
def half_trace (F : GF2mField) (a : Nat) : Except String Nat :=
  if F.m % 2 = 0 then .error "Напівслід визначений тільки для непарного m"
  else .ok (htrAux F ((F.m - 1) / 2) a a)

/-- `GF2mField.solve_quadratic`: solutions of z^2 + uz + w = 0.  Returns the
pair (count, solution); the only possible exception is the odd-m check inside
`half_trace`. -/
def solve_quadratic (F : GF2mField) (u w : Nat) :
    Except String (Nat × Option Nat) :=
  if u = 0 then
    if w = 0 then .ok (2, some 0)
    else .ok (1, some (power F w (1 <<< (F.m - 1))))
  else if w = 0 then .ok (2, some 0)
  else
    let u_squared := square F u
    match inverse F u_squared with
    | none => .ok (0, none)
    | some u_inv =>
      let v := multiply F w u_inv
      if trace F v ≠ 0 then .ok (0, none)
      else do
        let htr_v ← half_trace F v
        .ok (2, some (multiply F htr_v u))

/-! ### Byte conversions of field.py

`np.unpackbits` expands each byte most-significant-bit first;
`np.packbits` is its inverse, padding an incomplete trailing group of
bits with zeros. -/

/-- The eight bits of one byte, most significant first (`np.unpackbits`). -/
def byteBits (b : Nat) : List Bool :=
  [b.testBit 7, b.testBit 6, b.testBit 5, b.testBit 4,
   b.testBit 3, b.testBit 2, b.testBit 1, b.testBit 0]

/-- Read a bit list as a big-endian number. -/
def bitsToNat (bits : List Bool) : Nat :=
  bits.foldl (fun acc b => 2 * acc + (if b then 1 else 0)) 0

/-- `np.packbits`: group the bits eight at a time, most significant first,
padding the final incomplete group with zeros. -/
def packBits : List Bool → List Nat
  | b0 :: b1 :: b2 :: b3 :: b4 :: b5 :: b6 :: b7 :: rest =>
      bitsToNat [b0, b1, b2, b3, b4, b5, b6, b7] :: packBits rest
  | [] => []
  | rest => [bitsToNat (rest ++ List.replicate (8 - rest.length) false)]

/-- `element_from_bytes`: unpack the bytes to bits, truncate or zero-pad the
bit list to length m, and reverse it (least significant bit of the element
first). -/
def element_from_bytes (F : GF2mField) (data : List Nat) : Nat :=
  let bits := data.flatMap byteBits
  let bits2 :=
    if bits.length > F.m then bits.take F.m
    else bits ++ List.replicate (F.m - bits.length) false
  -- the reversed list is the element least-significant-bit first, i.e. the
  -- original (truncated) list read as a big-endian number
  bitsToNat bits2

/-- `element_to_bytes`: reverse the element (most significant coefficient
first), left-pad with zeros to a multiple of eight bits, and pack. -/
def element_to_bytes (F : GF2mField) (element : Nat) : List Nat :=
  let padded_len := (F.m + 7) / 8 * 8
  let elementRev := (List.range F.m).map (fun j => element.testBit (F.m - 1 - j))
  packBits (List.replicate (padded_len - F.m) false ++ elementRev)

end GF2mField

/-- The field GF(2^163) of `DSTU_FIELDS`, pentanomial t^163+t^7+t^6+t^3+1. -/
def F163 : GF2mField := ⟨163, .pentanomial 7 6 3⟩

/-- The field GF(2^257) of `DSTU_FIELDS`, trinomial t^257+t^12+1. -/
def F257 : GF2mField := ⟨257, .trinomial 12⟩

end DSTU

namespace DSTU

/-! ## dstu4145/curve.py -/

/-- A point of the curve (`Point`): the point at infinity O, or an affine
pair of field elements. -/
inductive Point where
  | infinity
  | affine (x y : Nat)
deriving DecidableEq

/-- Python exceptions that curve operations can raise: `ValueError` with a
message, or the `TypeError` that results from using `None` (a failed field
inversion) as an operand. -/
inductive PyError where
  | valueError (msg : String)
  | typeError
deriving DecidableEq

/-- The curve y^2 + xy = x^3 + Ax^2 + B over GF(2^m) (`EllipticCurve`). -/
structure EllipticCurve where
  F : GF2mField
  A : Nat
  B : Nat
deriving DecidableEq

namespace EllipticCurve

open GF2mField

/-- `EllipticCurve.is_on_curve`: O is on the curve; an affine point is on the
curve iff y^2 + xy = x^3 + Ax^2 + B. -/
def is_on_curve (C : EllipticCurve) (P : Point) : Bool :=
  match P with
  | .infinity => true
  | .affine x y =>
    let y_squared := square C.F y
    let xy := multiply C.F x y
    let left := add C.F y_squared xy
    let x_squared := square C.F x
    let x_cubed := multiply C.F x x_squared
    let right1 := if C.A = 1 then add C.F x_cubed x_squared else x_cubed
    let right := add C.F right1 C.B
    left == right

/-- `EllipticCurve.double`: doubling, with 2P = O when P = O or x = 0. -/
def double (C : EllipticCurve) (P : Point) : Point :=
  match P with
  | .infinity => .infinity
  | .affine x y =>
    if x = 0 then .infinity
    else
      match inverse C.F x with
      | none => .infinity
      | some x_inv =>
        let lam := add C.F x (multiply C.F y x_inv)
        let lam_squared := square C.F lam
        let xR1 := add C.F lam_squared lam
        let xR := if C.A = 1 then add C.F xR1 (one C.F) else xR1
        let yR := add C.F (add C.F (square C.F x) (multiply C.F lam xR)) xR
        .affine xR yR

/-- `EllipticCurve.add` (point addition): the affine chord rule, with the
special cases O + Q, P + O, P + (-P) and doubling of the source. -/
def ptAdd (C : EllipticCurve) (P Q : Point) : Point :=
  match P, Q with
  | .infinity, q => q
  | p, .infinity => p
  | .affine x1 y1, .affine x2 y2 =>
    if x1 = x2 then
      if y1 = y2 then double C (.affine x1 y1) else .infinity
    else
      let numerator := add C.F y1 y2
      let denominator := add C.F x1 x2
      match inverse C.F denominator with
      | none => .infinity
      | some den_inv =>
        let lam := multiply C.F numerator den_inv
        let lam_squared := square C.F lam
        let xR1 := add C.F (add C.F (add C.F lam_squared lam) x1) x2
        let xR := if C.A = 1 then add C.F xR1 (one C.F) else xR1
        let yR := add C.F (add C.F (multiply C.F lam (add C.F x1 xR)) xR) y1
        .affine xR yR

/-- The double-and-add loop of `EllipticCurve.multiply`; `fuel` bounds the
iterations (the scalar halves each round). -/
def mulPointAux (C : EllipticCurve) : Nat → Nat → Point → Point → Point
  | 0, _, result, _ => result
  | fuel + 1, k, result, addend =>
      if k = 0 then result
      else mulPointAux C fuel (k / 2)
        (if k % 2 = 1 then ptAdd C result addend else result)
        (double C addend)

/-- `EllipticCurve.multiply` (scalar multiplication k·P). -/
def pointMul (C : EllipticCurve) (k : Nat) (P : Point) : Point :=
  if k = 0 ∨ P = .infinity then .infinity
  else if k = 1 then P
  else mulPointAux C k k .infinity P

/-- Overwrite the lowest bit of a field element with b, as the source does by
assigning to index 0 of the bit array. -/
def setLowBit (x b : Nat) : Nat := x - x % 2 + b

/-- `EllipticCurve.compress_point` (6.9 of the standard): O and points with
x = 0 compress to the zero element; otherwise the x-coordinate with its low
bit overwritten by the trace of y/x.  A `None` from a failed inversion would
make the following multiplication a `TypeError`; this cannot happen because
x ≠ 0 is already checked. -/
def compress_point (C : EllipticCurve) (P : Point) : Except PyError Nat :=
  match P with
  | .infinity => .ok (zero C.F)
  | .affine x y =>
    if x = 0 then .ok (zero C.F)
    else
      match inverse C.F x with
      | none => .error .typeError
      | some x_inv =>
        let y_norm := multiply C.F y x_inv
        let trace_bit := trace C.F y_norm
        .ok (setLowBit x trace_bit)

/-- `EllipticCurve.decompress_point` (6.10 of the standard).  The zero
encoding yields (0, B^(2^(m-1))).  Otherwise the low bit is the trace bit k,
the candidate x is the encoding with low bit cleared (re-set to 1 when the
trace of the candidate differs from A), and y is recovered by solving
z^2 + z + v = 0 with v = (x^3 + Ax^2 + B)/x^2.  An unsolvable equation raises
`ValueError`; a `None` inverse flowing into a multiplication raises
`TypeError`. -/
def decompress_point (C : EllipticCurve) (compressed : Nat) :
    Except PyError Point :=
  if compressed = 0 then
    .ok (.affine (zero C.F) (power C.F C.B (1 <<< (C.F.m - 1))))
  else
    let k := compressed % 2
    let x0 := setLowBit compressed 0
    let xP := if trace C.F x0 ≠ C.A then setLowBit x0 1 else x0
    let xP_squared := square C.F xP
    let xP_cubed := multiply C.F xP xP_squared
    let w1 := if C.A = 1 then add C.F xP_cubed xP_squared else xP_cubed
    let w := add C.F w1 C.B
    match inverse C.F xP_squared with
    | none => .error .typeError
    | some xP_squared_inv =>
      let v := multiply C.F w xP_squared_inv
      match solve_quadratic C.F (one C.F) v with
      | .error e => .error (.valueError e)
      | .ok (count, z?) =>
        if count = 0 then .error (.valueError "Не вдалося відновити точку")
        else
          match z? with
          | none => .error .typeError
          | some z =>
            let yP :=
              if trace C.F z = k then multiply C.F z xP
              else multiply C.F (add C.F z (one C.F)) xP
            .ok (.affine xP yP)

end EllipticCurve

/-! ### The recommended curves (`get_dstu_curve_163`, `get_dstu_curve_257`) -/

/-- Curve coefficient B of the M-163 parameter set. -/
def B163 : Nat := 0x5FF6108462A2DC8210AB403925E638A19C1455D21

/-- Order n of the M-163 base point. -/
def n163 : Nat := 0x400000000000000000002BEC12BE2262D39BCF14D

/-- The M-163 curve of `get_dstu_curve_163`. -/
def curve163 : EllipticCurve := ⟨F163, 1, B163⟩

/-- The official M-163 base point of `get_dstu_curve_163`. -/
def basePoint163 : Point :=
  .affine 0x72D867F93A93AC27DF9FF01AFFE74885C8C540420
          0x0224A9C3947852B97C5599D5F4AB81122ADC3FD9B

/-- Curve coefficient B of the M-257 parameter set. -/
def B257 : Nat := 0x1CEF494720115657E18F938D7A7942394FF9425C1458C57861F9EEA6ADBE3BE10

/-- Order n of the M-257 base point. -/
def n257 : Nat := 0x800000000000000000000000000000006759213AF182E987D3E17714907D470D

/-- The M-257 curve of `get_dstu_curve_257`. -/
def curve257 : EllipticCurve := ⟨F257, 0, B257⟩

end DSTU

namespace DSTU

/-! ## dstu4145/signature.py -/

/-- Python `int.bit_length`, by repeated halving (`fuel`-bounded; `fuel = v`
always suffices). -/
def bitLenAux : Nat → Nat → Nat
  | 0, _ => 0
  | fuel + 1, v => if v = 0 then 0 else bitLenAux fuel (v / 2) + 1

/-- Python `int.bit_length`. -/
def bitLength (v : Nat) : Nat := bitLenAux v v

/-- Python `int.to_bytes(len, "big")` without the overflow check: `len`
big-endian bytes of the value. -/
def toBytesBE : Nat → Nat → List Nat
  | 0, _ => []
  | len + 1, v => toBytesBE len (v / 256) ++ [v % 256]

/-- Python `int.from_bytes(data, "big")`. -/
def fromBytesBE (data : List Nat) : Nat :=
  data.foldl (fun acc b => 256 * acc + b) 0

/-- The DSTU 4145 signature scheme object (`DSTU4145.__init__`): field, curve,
base point and its order.  The Kupyna-256 hash used by `hash_data` lives in an
external module (`kupyna`, not part of this repository); it is carried here as
an opaque function from byte strings to byte strings. -/
structure DSTU4145 where
  field : GF2mField
  curve : EllipticCurve
  P : Point
  n : Nat
  /-- Modelled from the spec: `hash_data` applies the external Kupyna-256
  hash, a black-box primitive returning 32 bytes. -/
  hash_data : List Nat → List Nat

namespace DSTU4145

open GF2mField EllipticCurve

/-- `DSTU4145.hash_to_field_element` (5.9 of the standard): load the hash as a
field element; a zero result is replaced by one. -/
def hash_to_field_element (S : DSTU4145) (h : List Nat) : Nat :=
  let element := element_from_bytes S.field h
  if is_zero S.field element then one S.field else element

/-- `DSTU4145.field_element_to_int` (5.8 of the standard): the integer of the
element, truncated to its low L(n) - 1 bits. -/
def field_element_to_int (S : DSTU4145) (x : Nat) : Nat :=
  let value := element_to_int S.field x
  let n_bit_length := bitLength S.n
  let mask := (1 <<< (n_bit_length - 1)) - 1
  value &&& mask

/-- One signing attempt of the loop in `DSTU4145.sign`, steps 8-13, for a
given random draw e: retry (`none`) when e = 0, R = eP = O, r = 0 or s = 0,
otherwise the signature (r, s). -/
def signAttempt (S : DSTU4145) (h : Nat) (private_key e : Nat) :
    Option (Nat × Nat) :=
  if e = 0 then none
  else
    match pointMul S.curve e S.P with
    | .infinity => none
    | .affine xR _ =>
      let y := multiply S.field h xR
      let r := field_element_to_int S y
      if r = 0 then none
      else
        let s := (((e : Int) - (private_key : Int) * (r : Int)) % (S.n : Int)).toNat
        if s = 0 then none
        else some (r, s)

/-- The retry loop of `DSTU4145.sign` over the provided list of random draws
(the source draws from `secrets.randbelow` at most 1000 times and raises
`RuntimeError` when all attempts fail). -/
def signLoop (S : DSTU4145) (h : Nat) (private_key : Nat) :
    List Nat → Except String (Nat × Nat)
  | [] => .error "Не вдалося створити підпис за 1000 спроб"
  | e :: rest =>
    match signAttempt S h private_key e with
    | some sig => .ok sig
    | none => signLoop S h private_key rest

/-- `DSTU4145.sign`: reject a private key outside (0, n) before hashing and
before consuming any randomness, then hash the message, map the hash to a
field element, and run the retry loop. -/
def sign (S : DSTU4145) (data : List Nat) (private_key : Nat)
    (draws : List Nat) : Except String (Nat × Nat) :=
  if ¬(0 < private_key ∧ private_key < S.n) then
    .error "Невірний особистий ключ"
  else
    let hash_bytes := S.hash_data data
    let h := hash_to_field_element S hash_bytes
    signLoop S h private_key draws

/-- `DSTU4145.verify` (13 of the standard): range checks on r and s, public
key checks, then compare r with the truncation of h·x(sP + rQ).  Every
failure is the boolean false; the function raises no exception. -/
def verify (S : DSTU4145) (data : List Nat) (signature : Nat × Nat)
    (public_key : Point) : Bool :=
  let r := signature.1
  let s := signature.2
  if ¬(0 < r ∧ r < S.n) then false
  else if ¬(0 < s ∧ s < S.n) then false
  else if ¬(is_on_curve S.curve public_key) then false
  else if public_key = .infinity then false
  else
    let hash_bytes := S.hash_data data
    let h := hash_to_field_element S hash_bytes
    let sP := pointMul S.curve s S.P
    let rQ := pointMul S.curve r public_key
    match ptAdd S.curve sP rQ with
    | .infinity => false
    | .affine xR _ =>
      let y := multiply S.field h xR
      let r_prime := field_element_to_int S y
      r_prime == r

/-- `DSTU4145.export_signature`: r and s each as ⌈bitlen(n)/8⌉ big-endian
bytes, concatenated; Python raises `OverflowError` when a component does not
fit. -/
def export_signature (S : DSTU4145) (signature : Nat × Nat) :
    Except String (List Nat) :=
  let r := signature.1
  let s := signature.2
  let n_bytes := (bitLength S.n + 7) / 8
  if r < 256 ^ n_bytes ∧ s < 256 ^ n_bytes then
    .ok (toBytesBE n_bytes r ++ toBytesBE n_bytes s)
  else .error "OverflowError"

/-- `DSTU4145.import_signature`: reject any length other than
2·⌈bitlen(n)/8⌉, then split and read both halves big-endian.  The source
performs no range check on the decoded components. -/
def import_signature (S : DSTU4145) (signature_bytes : List Nat) :
    Except String (Nat × Nat) :=
  let n_bytes := (bitLength S.n + 7) / 8
  if signature_bytes.length ≠ 2 * n_bytes then
    .error "Невірна довжина підпису"
  else
    .ok (fromBytesBE (signature_bytes.take n_bytes),
         fromBytesBE (signature_bytes.drop n_bytes))

/-- `DSTU4145.export_public_key`: x and y each as ⌈m/8⌉ big-endian bytes;
exporting O raises. -/
def export_public_key (S : DSTU4145) (public_key : Point) :
    Except String (List Nat) :=
  match public_key with
  | .infinity => .error "Не можна експортувати точку O"
  | .affine x y =>
    let byte_len := (S.field.m + 7) / 8
    if element_to_int S.field x < 256 ^ byte_len ∧
       element_to_int S.field y < 256 ^ byte_len then
      .ok (toBytesBE byte_len (element_to_int S.field x) ++
           toBytesBE byte_len (element_to_int S.field y))
    else .error "OverflowError"

/-- `DSTU4145.import_public_key`: reject a wrong length, rebuild the point,
and reject a point that is not on the curve. -/
def import_public_key (S : DSTU4145) (key_bytes : List Nat) :
    Except String Point :=
  let byte_len := (S.field.m + 7) / 8
  if key_bytes.length ≠ 2 * byte_len then
    .error "Невірна довжина ключа"
  else
    let x := element_from_int S.field (fromBytesBE (key_bytes.take byte_len))
    let y := element_from_int S.field (fromBytesBE (key_bytes.drop byte_len))
    let point := Point.affine x y
    if ¬(is_on_curve S.curve point) then
      .error "Точка не належить кривій"
    else .ok point

end DSTU4145

/-! ## mldsa/wrapper.py and hybrid.py -/

/-- `MLDSA44.verify`: the backend call `oqs.Signature(...).verify` is an
external effect that either returns a boolean or throws; the whole call is
wrapped in `try/except` and any exception becomes `False`. -/
def MLDSA44.verify (backend : Except String Bool) : Bool :=
  match backend with
  | .ok is_valid => is_valid
  | .error _ => false

/-- The result dictionary built by `PureHybridSignature.verify`. -/
structure VerifyResults where
  valid : Bool
  dstu_valid : Bool
  mldsa_valid : Bool
  errors : List String
deriving DecidableEq

/-- `PureHybridSignature.verify`: both component verifications start `False`;
each is computed inside its own `try`, an exception leaving the flag `False`
and appending an error entry; the overall verdict is the conjunction of the
two flags.  The two arguments are the component computations: for DSTU the
body `import_public_key` + `DSTU4145.verify` (which can raise on a malformed
stored key), for ML-DSA the wrapper call. -/
def PureHybridSignature.verify (dstu_component : Except String Bool)
    (mldsa_component : Except String Bool) : VerifyResults :=
  let dstuPart : Bool × List String :=
    match dstu_component with
    | .ok b => (b, [])
    | .error e => (false, ["DSTU: " ++ e])
  let mldsaPart : Bool × List String :=
    match mldsa_component with
    | .ok b => (b, [])
    | .error e => (false, ["ML-DSA: " ++ e])
  { valid := dstuPart.1 && mldsaPart.1
    dstu_valid := dstuPart.1
    mldsa_valid := mldsaPart.1
    errors := dstuPart.2 ++ mldsaPart.2 }

/-- The DSTU half of `PureHybridSignature.verify` as the source composes
it: import the stored public key bytes, then verify; an import failure
is the exception caught by the surrounding `try`. -/
def dstuComponent (S : DSTU4145) (data : List Nat) (signature : Nat × Nat)
    (public_key_bytes : List Nat) : Except String Bool := do
  let q ← S.import_public_key public_key_bytes
  .ok (S.verify data signature q)

end DSTU

namespace DSTU

/-- A concrete `DSTU4145` instance with the M-163 domain parameters of
`create_dstu4145_163` / `get_dstu_curve_163`.  The external Kupyna-256 hash
(not part of this repository) is stood in for by a fixed 32-byte function;
none of the properties proved below depend on the hash values. -/
def scheme163 : DSTU4145 :=
  { field := F163
    curve := curve163
    P := basePoint163
    n := n163
    hash_data := fun _ => List.replicate 32 0 }

/-- A concrete `DSTU4145` instance with the M-257 domain parameters of
`get_dstu_curve_257` (the base point there is generated at runtime from a
fixed seed; these claims do not depend on it, so O is used as a stand-in). -/
def scheme257 : DSTU4145 :=
  { field := F257
    curve := curve257
    P := .infinity
    n := n257
    hash_data := fun _ => List.replicate 32 0 }

end DSTU

namespace DSTU

/-! ## Proof machinery: xor sums, step iteration

These definitions are not part of the source; they are the vocabulary in
which the algebraic properties of `GF2mField.multiply` are stated. -/

/-- XOR of f 0, …, f (n-1). -/
def xorRange (f : Nat → Nat) (n : Nat) : Nat :=
  ((List.range n).map f).foldr (fun x y => x ^^^ y) 0

namespace GF2mField

/-- k-fold iteration of the shift-and-reduce step of `multiply`; `stepPow F k
t` is t·t^k reduced, i.e. the state of `temp_b` after k rounds. -/
def stepPow (F : GF2mField) : Nat → Nat → Nat
  | 0, t => t
  | k + 1, t => stepPow F k (mulStep F t)

/-- k-fold iteration of `square`. -/
def sqIter (F : GF2mField) : Nat → Nat → Nat
  | 0, a => a
  | k + 1, a => sqIter F k (square F a)

end GF2mField

end DSTU


namespace DSTU

/-! ## Kernel-friendly evaluation forms

The faithful definitions above mirror the source line by line; the following
forms compute the same values through primitive `Nat` operations only, which
the kernel evaluates fast.  Each is proved equal to its faithful counterpart
on canonical inputs. -/

/-- Fast form of `GF2mField.mulStep` with M = 2^m:
(2t mod M) XOR ((2t div M)·red). -/
def fastStep (M red t : Nat) : Nat :=
  Nat.xor (Nat.mod (Nat.mul 2 t) M) (Nat.mul (Nat.div (Nat.mul 2 t) M) red)

/-- Fast form of the `multiply` loop; the bits of a are consumed by halving. -/
def fastMulAux (M red : Nat) : Nat → Nat → Nat → Nat → Nat :=
  fun fuel => Nat.rec (motive := fun _ => Nat → Nat → Nat → Nat)
    (fun _ acc _ => acc)
    (fun _ ih a acc t =>
      ih (Nat.div a 2) (Nat.xor acc (Nat.mul (Nat.mod a 2) t))
        (fastStep M red t))
    fuel

/-- Fast form of `GF2mField.multiply`. -/
def fastMul (M red m a b : Nat) : Nat := fastMulAux M red m a 0 b

/-- Fast form of `GF2mField.square`. -/
def fastSquare (M red m a : Nat) : Nat := fastMul M red m a a

/-- Fast form of the `trace` loop.  The inner redex, with its vacuous `if`,
forces each intermediate square to a numeral during kernel evaluation (the
equality test is satisfied by `ite_self`); without it the state nests lazily
and evaluation overflows the interpreter stack. -/
def fastTraceAux (M red m : Nat) : Nat → Nat → Nat → Nat :=
  fun k => Nat.rec (motive := fun _ => Nat → Nat → Nat)
    (fun r _ => r)
    (fun _ ih r t =>
      (fun s => if s = 0 then ih (Nat.xor r s) s else ih (Nat.xor r s) s)
        (fastSquare M red m t))
    k

/-- Fast form of `trSum` (the trace before bit extraction). -/
def fastTrSum (M red m a : Nat) : Nat := fastTraceAux M red m (m - 1) a a

/-- Fast form of `sqIter`, with the same strictness device. -/
def fastSqIter (M red m : Nat) : Nat → Nat → Nat :=
  fun k => Nat.rec (motive := fun _ => Nat → Nat)
    (fun a => a)
    (fun _ ih a =>
      (fun s => if s = 0 then ih s else ih s) (fastSquare M red m a))
    k

/-- Fast form of the `power` loop, with the same strictness device on both
state components. -/
def fastPowAux (M red m : Nat) : Nat → Nat → Nat → Nat → Nat :=
  fun fuel => Nat.rec (motive := fun _ => Nat → Nat → Nat → Nat)
    (fun _ r _ => r)
    (fun _ ih e r b =>
      if e = 0 then r
      else
        (fun r2 b2 =>
          if r2 + b2 = 0 then ih (Nat.div e 2) r2 b2 else ih (Nat.div e 2) r2 b2)
          (if Nat.mod e 2 = 1 then fastMul M red m r b else r)
          (fastSquare M red m b))
    fuel

/-- Fast form of `GF2mField.power`. -/
def fastPow (M red m a n : Nat) : Nat :=
  if n = 0 then 1 % M
  else if n = 1 then a
  else fastPowAux M red m n n (1 % M) a

end DSTU

namespace DSTU

/-! ## Derived forms for the decompression and quadratic-solver analysis -/

namespace EllipticCurve

open GF2mField

/-- The candidate x-coordinate that `decompress_point` computes for a nonzero
encoding: the encoding with its low bit cleared, re-set to 1 when the trace of
the cleared value differs from A. -/
def decompressCandidate (C : EllipticCurve) (compressed : Nat) : Nat :=
  let x0 := setLowBit compressed 0
  if trace C.F x0 ≠ C.A then setLowBit x0 1 else x0

/-- The part of `decompress_point` that follows once the candidate
x-coordinate xP has been fixed (k is the stored trace bit). -/
def decompressTail (C : EllipticCurve) (k xP : Nat) : Except PyError Point :=
  let xP_squared := square C.F xP
  let xP_cubed := multiply C.F xP xP_squared
  let w1 := if C.A = 1 then add C.F xP_cubed xP_squared else xP_cubed
  let w := add C.F w1 C.B
  match inverse C.F xP_squared with
  | none => .error .typeError
  | some xP_squared_inv =>
    let v := multiply C.F w xP_squared_inv
    match solve_quadratic C.F (one C.F) v with
    | .error e => .error (.valueError e)
    | .ok (count, z?) =>
      if count = 0 then .error (.valueError "Не вдалося відновити точку")
      else
        match z? with
        | none => .error .typeError
        | some z =>
          let yP :=
            if trace C.F z = k then multiply C.F z xP
            else multiply C.F (add C.F z (one C.F)) xP
          .ok (.affine xP yP)

end EllipticCurve

/-- XOR of the bits of v below index w (the parity of the low-w-bit
popcount). -/
def parityW (w v : Nat) : Nat :=
  xorRange (fun i => if v.testBit i then 1 else 0) w

/-- One halving step of the log-fold parity computation: XOR the top half
onto the bottom half and keep the bottom k bits. -/
def pfold (k v : Nat) : Nat := (v ^^^ (v >>> k)) % 2 ^ k

/-- Parity of the bits of a value below 2^256, computed by eight masked
halving folds; proved equal to `parityW 256` in `parity256_eq`. -/
def parity256 (v : Nat) : Nat :=
  pfold 1 (pfold 2 (pfold 4 (pfold 8 (pfold 16 (pfold 32 (pfold 64 (pfold 128 v)))))))

/-- The values square(t^i) + t^i in GF(2^163) for the basis monomials t^i,
i = 1..162, as computed by the verified fast multiplier (`cs163_spec`). -/
def cs163 : List Nat := [
  0x6, 0x14, 0x48, 0x110, 0x420, 0x1040, 0x4080, 0x10100, 0x40200, 0x100400, 0x400800, 0x1001000, 
  0x4002000, 0x10004000, 0x40008000, 0x100010000, 0x400020000, 0x1000040000, 0x4000080000, 
  0x10000100000, 0x40000200000, 0x100000400000, 0x400000800000, 0x1000001000000, 0x4000002000000, 
  0x10000004000000, 0x40000008000000, 0x100000010000000, 0x400000020000000, 0x1000000040000000, 
  0x4000000080000000, 0x10000000100000000, 0x40000000200000000, 0x100000000400000000, 
  0x400000000800000000, 0x1000000001000000000, 0x4000000002000000000, 0x10000000004000000000, 
  0x40000000008000000000, 0x100000000010000000000, 0x400000000020000000000, 
  0x1000000000040000000000, 0x4000000000080000000000, 0x10000000000100000000000, 
  0x40000000000200000000000, 0x100000000000400000000000, 0x400000000000800000000000, 
  0x1000000000001000000000000, 0x4000000000002000000000000, 0x10000000000004000000000000, 
  0x40000000000008000000000000, 0x100000000000010000000000000, 0x400000000000020000000000000, 
  0x1000000000000040000000000000, 0x4000000000000080000000000000, 0x10000000000000100000000000000, 
  0x40000000000000200000000000000, 0x100000000000000400000000000000, 
  0x400000000000000800000000000000, 0x1000000000000001000000000000000, 
  0x4000000000000002000000000000000, 0x10000000000000004000000000000000, 
  0x40000000000000008000000000000000, 0x100000000000000010000000000000000, 
  0x400000000000000020000000000000000, 0x1000000000000000040000000000000000, 
  0x4000000000000000080000000000000000, 0x10000000000000000100000000000000000, 
  0x40000000000000000200000000000000000, 0x100000000000000000400000000000000000, 
  0x400000000000000000800000000000000000, 0x1000000000000000001000000000000000000, 
  0x4000000000000000002000000000000000000, 0x10000000000000000004000000000000000000, 
  0x40000000000000000008000000000000000000, 0x100000000000000000010000000000000000000, 
  0x400000000000000000020000000000000000000, 0x1000000000000000000040000000000000000000, 
  0x4000000000000000000080000000000000000000, 0x10000000000000000000100000000000000000000, 
  0x40000000000000000000200000000000000000000, 0x400000000000000000192, 0x800000000000000000648, 
  0x1000000000000000001920, 0x2000000000000000006480, 0x4000000000000000019200, 
  0x8000000000000000064800, 0x10000000000000000192000, 0x20000000000000000648000, 
  0x40000000000000001920000, 0x80000000000000006480000, 0x100000000000000019200000, 
  0x200000000000000064800000, 0x400000000000000192000000, 0x800000000000000648000000, 
  0x1000000000000001920000000, 0x2000000000000006480000000, 0x4000000000000019200000000, 
  0x8000000000000064800000000, 0x10000000000000192000000000, 0x20000000000000648000000000, 
  0x40000000000001920000000000, 0x80000000000006480000000000, 0x100000000000019200000000000, 
  0x200000000000064800000000000, 0x400000000000192000000000000, 0x800000000000648000000000000, 
  0x1000000000001920000000000000, 0x2000000000006480000000000000, 0x4000000000019200000000000000, 
  0x8000000000064800000000000000, 0x10000000000192000000000000000, 
  0x20000000000648000000000000000, 0x40000000001920000000000000000, 
  0x80000000006480000000000000000, 0x100000000019200000000000000000, 
  0x200000000064800000000000000000, 0x400000000192000000000000000000, 
  0x800000000648000000000000000000, 0x1000000001920000000000000000000, 
  0x2000000006480000000000000000000, 0x4000000019200000000000000000000, 
  0x8000000064800000000000000000000, 0x10000000192000000000000000000000, 
  0x20000000648000000000000000000000, 0x40000001920000000000000000000000, 
  0x80000006480000000000000000000000, 0x100000019200000000000000000000000, 
  0x200000064800000000000000000000000, 0x400000192000000000000000000000000, 
  0x800000648000000000000000000000000, 0x1000001920000000000000000000000000, 
  0x2000006480000000000000000000000000, 0x4000019200000000000000000000000000, 
  0x8000064800000000000000000000000000, 0x10000192000000000000000000000000000, 
  0x20000648000000000000000000000000000, 0x40001920000000000000000000000000000, 
  0x80006480000000000000000000000000000, 0x100019200000000000000000000000000000, 
  0x200064800000000000000000000000000000, 0x400192000000000000000000000000000000, 
  0x800648000000000000000000000000000000, 0x1001920000000000000000000000000000000, 
  0x2006480000000000000000000000000000000, 0x4019200000000000000000000000000000000, 
  0x8064800000000000000000000000000000000, 0x10192000000000000000000000000000000000, 
  0x20648000000000000000000000000000000000, 0x41920000000000000000000000000000000000, 
  0x86480000000000000000000000000000000000, 0x119200000000000000000000000000000000000, 
  0x264800000000000000000000000000000000000, 0x592000000000000000000000000000000000000, 
  0xe48000000000000000000000000000000000000, 0x920000000000000000000000000000000000000, 
  0x4480000000000000000000000000000000000000, 0x1d200000000000000000000000000000000000000, 
  0x6c800000000000000000000000000000000000000, 0x200000000000000000000000000000000000015b, 
  0x6800000000000000000000000000000000000056c, 0x60000000000000000000000000000000000001422]

/-- Dual certificate for GF(2^163): entry j - 1 pairs to bit-parity 1 under
AND with entry j - 1 of `cs163` and to parity 0 with every other entry
(`cert163`), witnessing that a mapsto square(a) + a annihilates only the
two-element prime subfield. -/
def duals163 : List Nat := [
  0x62016f834a5c9ccd7189206c639af442a53a0d0ca, 0x69ca40565bad3e3f48676623b4d9e2e85b6236190, 
  0x1d1a0b805fafdf7d98a91d043cffd05c9bf3975f6, 0x6f3f72db95842a6bc701edf35c826c6f782af0300, 
  0x40d948794f803db9cda363636c1d6c6669eaa60a0, 0x48, 0x2a25275f3d4881c3ef3600cfde066d82f8ac30996, 
  0x4de7552190588b1f7b2baefc5305f44bb4fa5b248, 0x482417e86a03cdd2d856209e206f338182d443848, 
  0x15e70b25673bffcacbb55ec4ed7e25faaf8f0c880, 0x114c57a1cba24c3caee416bc64298a99a84142e20, 
  0x17e754117a2c2f168d5c5ef9708d8fbb70cd73f7e, 0x48256b61437ef07dd70960e667b3fc62ad7a0d0c8, 
  0x3a5f5f8edf8f4fba2b2013fcbced04179ac9d67b6, 0x604c406c8a3e3f80860862a2819c0820058004080, 
  0x77e7182f041a5ea8b5633ed0c9381e5b251b5d7fe, 0x15b965288b3be981a00f9d6c056440de8ea3a8420, 
  0x4a37093ad5c619e18309a1c53e964446d9aaf4396, 0x58048ffac6bef718fcf9f08f29bd3b70c5d7afce8, 
  0x58017dbd4db9284f78a5b07ded42f0d3ee3269248, 0x15b973994568e8a180271d756e2040dfe821e0620, 
  0x1304d539136051131a5d14bd563553d9f9f3777fe, 0x2a20c3bb519c0296c9cb40257581a660fc423a116, 
  0x15f45c720bbafa05f62b5fbb0530f87d4d23ec6a0, 0x58048b75432422f6910cb087e4839490e87923468, 
  0x77e751b8feded276512b3ef53bb3b45bd51b7d7fe, 0x64f56c9fc036e89ae32e2be9e1a1248664c8aa000, 
  0x75aa25fa010198c28eb2bc0f04520918ca0520c20, 0x77afc5ca1a2ed81fb4b0bcee10b1d91a937517dfe, 
  0x2c8ae72b6a02009fd79a082c6001fd00a47c0b848, 0x707ef61bce0d9c15675473b968d9efb56b6de6ea0, 
  0x678e6c49e0b0864a16fd6caa610a1be834161995e, 0x25aa919f38f87333753430574cd5f64dafeb395e, 
  0x4ec785d85b8e4a7681e76acf34a386e2984a12116, 0x3b33ce62f1be3acfaaf3956a3592c35e9d279cdb6, 
  0x7304c2aedc5b79d2517834a0bb77371917dd5fffe, 0x64f0c0ca452ecb022c192b222ca40946088680800, 
  0x320c3e51da7892092c04426dcc4122cba909115e, 0x70681f6ea5dc203b6b29321e8f8164598c6b4a620, 
  0x65d5f49e2badc78942072ff984ec60df4aa3e0620, 0x799f8da7895656fb800cd7331eed00f56b0f935e, 
  0x67d1690118979266938c2f6451d294ceb71a9d1de, 0x637f8e1c1e2c395d761b27c99897f9ce51f6b79de, 
  0x2b49a136f5c28146e07d4645be06a2ead88230116, 0x495f12de07f611ba982fe7d38f9512ef4dd2ef2c8, 
  0x4e3dbea8c78f436ee5bca760b39af63854e4ea80, 0x2b1239f3175f9db466f685175fdda38dffc4feb96, 
  0x295aacee2926f417c5af470a84b9fcec097a870c8, 0x114883f2e25d868ba416960723c86998c62528c20, 
  0x28244895acf5564a7bc140a1cbfa7660673a2d0c8, 0x15aa36b9aba1767c008d5c19447b00f96b43666a0, 
  0x133d8c5c691b3e74a82c572e957e02f27e0ce280, 0x6b847b2d09f65b21df7492d31ef1fe4d6debb95e, 
  0x66e393495e540d40b6d1ea567b8a1b63b41659b5e, 0x15f45c3aadbbfc01e42b5fb90d70687d4f23ec6a0, 
  0x127a225adc120f47dd9e9303391efd9455bdbddfe, 0x735b8e70b138ac641116f74b152a95be5c1db9d7e, 
  0x1252634247b33f34bbf44c98b1765ea45ee2e880, 0x149d2c88642cafdbcd3899c8280f6d1600ed82c20, 
  0x5b7fd13f95c72c938e8477f5dfc948bffe61fa736, 0x75aa25fa01018aa28eb2bc0f06400918ca0520c20, 
  0x16c78109da89584a1d6b9ac474721e52bb1b155fe, 0x4ff1f14dfdaf26fae892ef76f4cb212fba44d2b16, 
  0x17f5243d6edc4b607656dfc9fba63bbe7495b9d7e, 0x1116a55da19168ccefcf958fe562aedcee0ba8420, 
  0x2ec342c895c9221e4be74a625e41a6e23a4a12116, 0x3a05ad77505c7cfb0cb990cf73bb4952f5673edb6, 
  0x4cc2726def9a6c479aa5aa33ed2ad0c16c3269248, 0x1100178006acae7a418d141e088b24d9804b42620, 
  0x3ebcda2cd221ade42e7359b4b04e8b759287d0f36, 0x17ebeab05154ead43d187904de8e74d2e2ec8a00, 
  0x5f8b9ba21d201a49838ebc441c12449a9929145b6, 0x15f45c3aadbf7661e42b5f990dfa687d4f23ec6a0, 
  0x5d8e24a3a473df657833fcc84b7ef17a27b70dce8, 0x106da5c7e5c7859404e1924eeecd8a52aac302420, 
  0x25b9c11952bc610b3e6c2595c6916a37a587335e, 0x15ab11c3e33a2d160ce91e56650d8a5bacc34a620, 
  0x4df45d0e84758899feefabbc8bc17ac58672cb248, 0x127a3064dbf7bb9f12a11b12b7d5d0551ff3df7fe, 
  0x5cf45d0e84758899feefabbc8bc17ac58672cb248, 0x60000000000000000000000000000000000000000, 
  0x4f5328dce2914548f668bd0e85b8e872348c6280, 0x14d124554e5e7d8fa1475b4bebbcc6f665abac4a0, 
  0x2fe63aa2da0417d20aa28e90309f000911c056396, 0x2ed015d2f361959760508b1f365de305dbe4f6b96, 
  0x5cf533bd245db05d79117bd5cbd3f577e77fefee8, 0x3eaa6d0311a65beea446982c54b68a90b981145b6, 
  0x66f57eb3b01f65eab759ebf951ee1f67769ef9b5e, 0x3cb973d1ae638fddff1919774a4ffd57e2ffe3e68, 
  0x2b13082b9a9db26f0449054051d2ca4e37229c196, 0x3ef1f14976a192f24ba01b7678532417b349d67b6, 
  0x29000048eb0b677c7f3e0402246fbd880adc03848, 0x133cb90cb01b0f9cd82456524536c2ecb68a6080, 
  0x66f57a3c3585b004daacabf19cd0b0875b10f53de, 0x4df56cd72b3d8fe69c102febc5ce990e6e94a9848, 
  0x769c0e5ad12f68e67932f98b34e2b5345a1db1d7e, 0x168b8c27fb882c11bdf8d848f4095f32387d13d7e, 
  0x4fafc5ced8b208d5ab436ceeb103c66a946a1a116, 0x4dafc03820915229d3c16ce10170766a473a2d0c8, 
  0x727b4cedbea6e71391e1f36ad8ad567630fb9357e, 0x3fc7daa07d6e28eec06a5ef03e82a23b180150736, 
  0x4a3638e2580437466bc1a192309ea645118ad4396, 0x1104c2f1a08ade4ee7fad4a3403aaf38610d24ca0, 
  0x7698c87e7a9839545845b923b117b2d455d3bf5fe, 0x612401114f5baaf20d3724856f430dc8ee4e2a800, 
  0x4c410342d758c543ec42a463f2e6a0a7280c080, 0x6332fec7d1394f2858c8e53af56c322d3e90d935e, 
  0x679c46a39fc4cf4010c06da85eae122c38909115e, 0x15b81d39ef6ca4c4a7c71d1d6e8a8edde80be0620, 
  0x106970b76001e34c49de1271e066a793628d60e20, 0x73016a2bfbe8609bddf8f46076217f3a387d13d7e, 
  0x601238c3ee6d2e662975a1126aca87c5220ec0a00, 0x5f9881fa9daec5b6a14cfd071cad86bcd8c9b2536, 
  0x6217cf765a790857323761efb343d1e6d676bb95e, 0x5a1795b4be31529d25cc31dd9971ce97d769fe7b6, 
  0x4e98967a9b026bcce0c1e91b1426a2655882f0316, 0x636971dd5f6c46fa71e6e677feab36abf8587335e, 
  0x4fe3c98e138e24fcc1e76e64948ba6ea984a12116, 0x5ef533bd7ec5ee58e4207bd5faeb2837f241f2736, 
  0x76c2601ebc566bec7d0ffa219ba6bcf0549b3957e, 0x5d99f9eac8799f63d3467d76235e76bf87b9cd6e8, 
  0x3ef533bd7ec5ee58e4205bd5faeb2837f241f2736, 0x6213444bf2081663dc48216a701a7a063130951de, 
  0x7349ec383b180af4b314f669150395ba5c5d3bd7e, 0x5f5ebe6f63b5b6406ec3f9ae5da2a74bc0e6280, 
  0x5eaa379a5c6b99be2371381d3a558751d3cf76fb6, 0x4db81d714db99806f834ed1f6d50b1adef14edac8, 
  0x16c952ea462054f8fec869c8a0ece8980a840200, 0x135f5b4d77561658b76117f6ff9b1e5fbd5bdf7fe, 
  0x5b339156b631b41765cc35579959ee9fd769fe7b6, 0x4cc3551684f35766dc2dea7d8b7eb8e3c7926d2c8, 
  0x2c9881ed0a383eb4770b4906c119bc64a55a8f0c8, 0x4a3753a716bb6a518236e1f4d96341a7b664dab16, 
  0x2de75407cba8fdb4d11acef8e43db52b29dc47ac8, 0x4faa7f2adb01711c2fc3ac3c34758e499bca56396, 
  0x5f8f4e9ef9d7cc9525f1fce9b7e9cf7a5e6f3ad36, 0x5ee63e2c3040952f0ce23a98921cca1111a1547b6, 
  0x1032fed046af94aa8e8f513b28d808f54303e46a0, 0x598db2a47e61e08003dcd342e9801ed8906c4a80, 
  0x3d8f4ff16f2ed3d57d04dcef6cb7fcbae9f9274e8, 0x4ec7cd6d38627af26aaf2aeed23320c2b14216196, 
  0x580122c08fbf816bd37bb0420dc677520ebf09c68, 0x5f9c0bba9da6c5b6a14cfd851cad86bcd8c9b2536, 
  0x4e9893d35501cf442ac1e9177c6e8265fa82f0316, 0x15b93fb1ca06196d2b4f5d5d6096c6ffe1abe46a0, 
  0x4cc350f7caf0d3ee162dea73e33698e365926d2c8, 0x25bc6c551f29822f6ec036af7103a863d109d1de, 
  0x5f8e6c14dcbd733ca979bca9b9f5875857cf3edb6, 0x3692fd511f1a2f239ee464fd74316aafe583b15e, 
  0x5cbdf8c961b20d0dfa0e39f2650cf0972cb1c9668, 0x5a16b7be9b5b6d34a944719d976d86b5dec9fa736, 
  0x4daee0b82993d80053416ca1057036684f1a2d0c8, 0x321fb73fc14c8bb5b42c47779a1762bf4787b35e, 
  0x4fafa80f515d7459820b2cc0f7fb404a3f621e196, 0x4ff5a67d78614022a5ad6fcbf2600cee720ab0116, 
  0x4ad4a6ede56a4962ac8238aee260810a2040200, 0x15b11fb1ca06196d2b4f5d5d6096c6ffe1abe46a0, 
  0x4cf45d0e84758899feefabbc8bc17ac58672cb248, 0x4f3f72db95842a6bc701edf35c826c6f782af0316, 
  0x2000000000000000000000000000000000000000, 0xbcb2fd511f1a2f239ee464fd74316aafe583b15e, 
  0x64f45d0e84758899feefabbc8bc17ac58672cb248]

end DSTU

namespace DSTU

/-! ## Claim theorems -/

/-- C2: `PureHybridSignature.verify` returns a result whose `valid` field is
true iff both the DSTU component and the ML-DSA component verification
returned true; a component that raises is recorded as false (the
`MLDSA44.verify` equation is exactly the catch-to-false semantics of the
wrapper), and the overall verdict is the conjunction of the two component
flags.  The function is total, so no exception reaches the caller. -/
theorem hybrid_verify_contract (dc mc : Except String Bool) :
    ((PureHybridSignature.verify dc mc).valid = true
      ↔ (dc = Except.ok true ∧ mc = Except.ok true))
    ∧ (PureHybridSignature.verify dc mc).mldsa_valid = MLDSA44.verify mc
    ∧ (PureHybridSignature.verify dc mc).dstu_valid = MLDSA44.verify dc
    ∧ (PureHybridSignature.verify dc mc).valid
      = ((PureHybridSignature.verify dc mc).dstu_valid
          && (PureHybridSignature.verify dc mc).mldsa_valid) := by
  cases dc with
  | ok b => cases mc with
    | ok c => cases b <;> cases c <;> simp [PureHybridSignature.verify, MLDSA44.verify]
    | error e => cases b <;> simp [PureHybridSignature.verify, MLDSA44.verify]
  | error e => cases mc with
    | ok c => cases c <;> simp [PureHybridSignature.verify, MLDSA44.verify]
    | error f => simp [PureHybridSignature.verify, MLDSA44.verify]

/-- C9: `DSTU4145.sign` rejects a private key outside (0, n) with an
immediate error: the result is the fixed key error, for every message and
every list of random draws, so neither the message hash nor any randomness
is consumed, and the retry loop is never entered. -/
theorem sign_invalid_key (S : DSTU4145) (data : List Nat) (d : Nat)
    (draws : List Nat) (h : ¬(0 < d ∧ d < S.n)) :
    S.sign data d draws = Except.error "Невірний особистий ключ" := by
  simp [DSTU4145.sign, h]

/-- Witness for C9 at the M-163 instance with the out-of-range key d = 0. -/
theorem sign_invalid_key_witness :
    ¬(0 < 0 ∧ 0 < scheme163.n)
    ∧ scheme163.sign [] 0 [] = Except.error "Невірний особистий ключ" :=
  ⟨by decide, sign_invalid_key scheme163 [] 0 [] (by decide)⟩

/-- C7: `DSTU4145.verify` returns the boolean false (it cannot raise: it is a
total function into `Bool`) whenever the range check on r fails, or the range
check on s fails, or the public key is the point at infinity, or the public
key is not on the curve, or the recomputed point sP + rQ is the point at
infinity. -/
theorem verify_false_cases (S : DSTU4145) (data : List Nat) (r s : Nat)
    (Q : Point)
    (h : ¬(0 < r ∧ r < S.n) ∨ ¬(0 < s ∧ s < S.n) ∨ Q = Point.infinity
      ∨ EllipticCurve.is_on_curve S.curve Q = false
      ∨ EllipticCurve.ptAdd S.curve (EllipticCurve.pointMul S.curve s S.P)
          (EllipticCurve.pointMul S.curve r Q) = Point.infinity) :
    S.verify data (r, s) Q = false := by
  unfold DSTU4145.verify
  by_cases hr : 0 < r ∧ r < S.n
  · by_cases hs : 0 < s ∧ s < S.n
    · by_cases hc : EllipticCurve.is_on_curve S.curve Q = true
      · by_cases hq : Q = Point.infinity
        · simp [hr, hs, hc, hq]
        · have hR : EllipticCurve.ptAdd S.curve
              (EllipticCurve.pointMul S.curve s S.P)
              (EllipticCurve.pointMul S.curve r Q) = Point.infinity := by
            rcases h with h | h | h | h | h
            · exact absurd hr h
            · exact absurd hs h
            · exact absurd h hq
            · rw [hc] at h; cases h
            · exact h
          simp only [hr, hs, hc, hq, hR]
          simp
      · simp at hc
        simp [hr, hs, hc]
    · simp [hr, hs]
  · simp [hr]

/-- Witness for C7 at the M-163 instance: r = 0 fails the range check. -/
theorem verify_false_cases_witness :
    (¬(0 < 0 ∧ 0 < scheme163.n) ∨ ¬(0 < 1 ∧ 1 < scheme163.n)
      ∨ basePoint163 = Point.infinity
      ∨ EllipticCurve.is_on_curve scheme163.curve basePoint163 = false
      ∨ EllipticCurve.ptAdd scheme163.curve
          (EllipticCurve.pointMul scheme163.curve 1 scheme163.P)
          (EllipticCurve.pointMul scheme163.curve 0 basePoint163)
          = Point.infinity)
    ∧ scheme163.verify [] (0, 1) basePoint163 = false :=
  ⟨Or.inl (by decide),
   verify_false_cases scheme163 [] 0 1 basePoint163 (Or.inl (by decide))⟩

end DSTU

namespace DSTU

/-- C8 counterexample: a 42-byte all-zero input has the canonical length for
the M-163 instance, decodes without any error to (r, s) = (0, 0), and r = 0
violates the range 0 < r < n — so `import_signature`, contrary to the claim,
does not fail on out-of-range components. -/
theorem import_signature_no_range_check :
    scheme163.import_signature (List.replicate 42 0) = Except.ok (0, 0)
    ∧ ¬(0 < 0 ∧ 0 < scheme163.n) := by
  constructor
  · rfl
  · decide

/-- C8 (amended): `import_signature` fails with a decode error exactly when
the input length differs from 2·⌈bitlen(n)/8⌉; a decoded component that is
out of range is returned without any error (the range is only checked later,
by `verify`). -/
theorem import_signature_error_iff (S : DSTU4145) (bs : List Nat) :
    (∃ e, S.import_signature bs = Except.error e)
      ↔ bs.length ≠ 2 * ((bitLength S.n + 7) / 8) := by
  unfold DSTU4145.import_signature
  by_cases h : bs.length = 2 * ((bitLength S.n + 7) / 8)
  · simp [h]
  · simp [h]

/-- C4 counterexample: (1, 1) satisfies the range conditions for the M-163
order n, and exporting it produces a byte string of length 42, not the
claimed 46 (bitlen(n) = 163, not 181, so each component takes 21 bytes, not
23). -/
theorem export_signature_163_not_46_bytes :
    (0 < 1 ∧ 1 < n163)
    ∧ scheme163.export_signature (1, 1)
        = Except.ok (toBytesBE 21 1 ++ toBytesBE 21 1)
    ∧ (toBytesBE 21 1 ++ toBytesBE 21 1).length = 42
    ∧ ¬(toBytesBE 21 1 ++ toBytesBE 21 1).length = 46
    ∧ bitLength n163 = 163 := by
  refine ⟨by decide, by rfl, by decide, by decide, by decide⟩

/-- The length of Python `int.to_bytes(len, "big")` is its length argument. -/
theorem toBytesBE_length (len v : Nat) : (toBytesBE len v).length = len := by
  induction len generalizing v with
  | zero => rfl
  | succ k ih => simp [toBytesBE, ih]

/-- C4 (amended): for the M-163 parameter set, exporting any valid signature
(r, s) with 0 < r < n and 0 < s < n succeeds and produces exactly 42 bytes:
r and s each big-endian, zero-padded to 21 bytes (bitlen(n) = 163 for that
parameter set), concatenated. -/
theorem export_signature_163_is_42_bytes (r s : Nat)
    (hr1 : 0 < r) (hr2 : r < n163) (hs1 : 0 < s) (hs2 : s < n163) :
    scheme163.export_signature (r, s) = Except.ok (toBytesBE 21 r ++ toBytesBE 21 s)
    ∧ (toBytesBE 21 r ++ toBytesBE 21 s).length = 42
    ∧ (toBytesBE 21 r).length = 21 ∧ (toBytesBE 21 s).length = 21 := by
  have hn : bitLength n163 = 163 := by decide
  have hlt : n163 < 256 ^ 21 := by decide
  have hb : (bitLength scheme163.n + 7) / 8 = 21 := by
    show (bitLength n163 + 7) / 8 = 21
    rw [hn]
  have hr : r < 256 ^ 21 := lt_trans hr2 hlt
  have hs : s < 256 ^ 21 := lt_trans hs2 hlt
  unfold DSTU4145.export_signature
  simp only [hb]
  rw [if_pos ⟨hr, hs⟩]
  refine ⟨rfl, ?_, toBytesBE_length 21 r, toBytesBE_length 21 s⟩
  simp [toBytesBE_length]

/-- Witness for C4 (amended) at r = s = 1. -/
theorem export_signature_163_is_42_bytes_witness :
    (0 < 1 ∧ 1 < n163)
    ∧ (scheme163.export_signature (1, 1)
        = Except.ok (toBytesBE 21 1 ++ toBytesBE 21 1)
      ∧ (toBytesBE 21 1 ++ toBytesBE 21 1).length = 42
      ∧ (toBytesBE 21 1).length = 21 ∧ (toBytesBE 21 1).length = 21) :=
  ⟨⟨by decide, by decide⟩,
   export_signature_163_is_42_bytes 1 1 (by decide) (by decide) (by decide)
     (by decide)⟩

/-- C3: the byte round trip fails on the M-163 field.  The canonical element
a = 1 exports to the 21-byte string 0x00…01, which `element_from_bytes` reads
back as 0, not 1: the exporter bottom-aligns the m bits in the padded byte
string while the importer truncates the unpacked bit list to its first m
bits, i.e. top-aligns.  Likewise the canonically sized 21-byte string
0x00…01 maps to the field and back to the all-zero string. -/
theorem bytes_roundtrip_failure :
    GF2mField.element_from_bytes F163 (GF2mField.element_to_bytes F163 1) = 0
    ∧ (1 : Nat) ≠ 0
    ∧ (GF2mField.element_to_bytes F163 1).length = 21
    ∧ GF2mField.element_to_bytes F163
        (GF2mField.element_from_bytes F163 (List.replicate 20 0 ++ [1]))
        = List.replicate 21 0
    ∧ (List.replicate 20 0 ++ [1] : List Nat) ≠ List.replicate 21 0 := by
  refine ⟨by decide, by decide, by decide, by decide, by decide⟩

end DSTU


namespace DSTU

/-! ## Algebra of the bit-level field operations -/

section XorRange

theorem xorFoldr_init (l : List Nat) (z : Nat) :
    l.foldr (fun x y => x ^^^ y) z = l.foldr (fun x y => x ^^^ y) 0 ^^^ z := by
  induction l with
  | nil => simp
  | cons x xs ih => simp only [List.foldr_cons, ih, Nat.xor_assoc]

theorem xorRange_zero (f : Nat → Nat) : xorRange f 0 = 0 := rfl

theorem xorRange_succ (f : Nat → Nat) (n : Nat) :
    xorRange f (n + 1) = xorRange f n ^^^ f n := by
  unfold xorRange
  rw [List.range_succ, List.map_append, List.foldr_append]
  simp only [List.map_cons, List.map_nil, List.foldr_cons, List.foldr_nil,
    Nat.xor_zero]
  rw [xorFoldr_init]

theorem xorRange_succ_head (f : Nat → Nat) (n : Nat) :
    xorRange f (n + 1) = f 0 ^^^ xorRange (fun i => f (i + 1)) n := by
  unfold xorRange
  rw [List.range_succ_eq_map, List.map_cons, List.foldr_cons, List.map_map]
  rfl

theorem xorRange_congr {f g : Nat → Nat} {n : Nat}
    (h : ∀ i, i < n → f i = g i) : xorRange f n = xorRange g n := by
  induction n with
  | zero => rfl
  | succ k ih =>
    rw [xorRange_succ, xorRange_succ, ih (fun i hi => h i (by omega)),
      h k (by omega)]

theorem xorRange_xor (f g : Nat → Nat) (n : Nat) :
    xorRange (fun i => f i ^^^ g i) n = xorRange f n ^^^ xorRange g n := by
  induction n with
  | zero => simp [xorRange_zero]
  | succ k ih =>
    rw [xorRange_succ, xorRange_succ, xorRange_succ, ih]
    rw [Nat.xor_assoc, Nat.xor_assoc]
    congr 1
    rw [← Nat.xor_assoc, ← Nat.xor_assoc, Nat.xor_comm (f k)]

theorem xorRange_zero_fun {f : Nat → Nat} {n : Nat}
    (h : ∀ i, i < n → f i = 0) : xorRange f n = 0 := by
  induction n with
  | zero => rfl
  | succ k ih =>
    rw [xorRange_succ, ih (fun i hi => h i (by omega)), h k (by omega)]
    simp

theorem xorRange_single {f : Nat → Nat} {n j : Nat} (hj : j < n)
    (h : ∀ i, i < n → i ≠ j → f i = 0) : xorRange f n = f j := by
  induction n with
  | zero => omega
  | succ k ih =>
    rw [xorRange_succ]
    by_cases hjk : j = k
    · subst hjk
      rw [xorRange_zero_fun (fun i hi => h i (by omega) (by omega))]
      exact Nat.zero_xor _
    · rw [ih (by omega) (fun i hi hij => h i (by omega) hij),
        h k (by omega) (fun hk => hjk hk.symm), Nat.xor_zero]

theorem xorRange_lt {f : Nat → Nat} {n k : Nat}
    (h : ∀ i, i < n → f i < 2 ^ k) : xorRange f n < 2 ^ k := by
  induction n with
  | zero => exact Nat.pos_pow_of_pos k (by omega)
  | succ j ih =>
    rw [xorRange_succ]
    exact Nat.xor_lt_two_pow (ih (fun i hi => h i (by omega))) (h j (by omega))

end XorRange

namespace GF2mField

variable {F : GF2mField}

theorem two_mul_xor (x y : Nat) : 2 * (x ^^^ y) = 2 * x ^^^ 2 * y := by
  apply Nat.eq_of_testBit_eq
  intro i
  have h2 : ∀ z : Nat, 2 * z = z <<< 1 := fun z => by
    rw [Nat.shiftLeft_eq, pow_one, Nat.mul_comm]
  rw [h2, h2, h2, Nat.testBit_xor, Nat.testBit_shiftLeft, Nat.testBit_shiftLeft,
    Nat.testBit_shiftLeft, Nat.testBit_xor]
  cases hd : decide (1 ≤ i) <;> simp

theorem mod_two_pow_xor (x y n : Nat) :
    (x ^^^ y) % 2 ^ n = x % 2 ^ n ^^^ y % 2 ^ n := by
  apply Nat.eq_of_testBit_eq
  intro i
  rw [Nat.testBit_mod_two_pow, Nat.testBit_xor, Nat.testBit_xor,
    Nat.testBit_mod_two_pow, Nat.testBit_mod_two_pow]
  cases decide (i < n) <;> simp

theorem xor_left_comm (a b c : Nat) : a ^^^ (b ^^^ c) = b ^^^ (a ^^^ c) := by
  rw [← Nat.xor_assoc, Nat.xor_comm a b, Nat.xor_assoc]

theorem mulStep_linear (x y : Nat) :
    mulStep F (x ^^^ y) = mulStep F x ^^^ mulStep F y := by
  unfold mulStep
  simp only []
  rw [two_mul_xor, mod_two_pow_xor, Nat.testBit_xor]
  cases hx : Nat.testBit x (F.m - 1) <;> cases hy : Nat.testBit y (F.m - 1) <;>
    simp [Nat.xor_assoc, Nat.xor_comm, xor_left_comm]

theorem mulStep_zero : mulStep F 0 = 0 := by
  unfold mulStep
  simp [Nat.zero_testBit]

theorem mulStep_lt (hred : F.red < 2 ^ F.m) (t : Nat) :
    mulStep F t < 2 ^ F.m := by
  unfold mulStep
  have hmod : 2 * t % 2 ^ F.m < 2 ^ F.m :=
    Nat.mod_lt _ (Nat.pos_pow_of_pos F.m (by omega))
  cases Nat.testBit t (F.m - 1) <;> simp only [if_true, if_false]
  · exact hmod
  · exact Nat.xor_lt_two_pow hmod hred

theorem mulStep_two_pow {c : Nat} (hc : c + 1 < F.m) :
    mulStep F (2 ^ c) = 2 ^ (c + 1) := by
  unfold mulStep
  have h1 : Nat.testBit (2 ^ c) (F.m - 1) = false :=
    Nat.testBit_two_pow_of_ne (by omega)
  have h2 : 2 * 2 ^ c % 2 ^ F.m = 2 ^ (c + 1) := by
    rw [← pow_succ']
    exact Nat.mod_eq_of_lt (Nat.pow_lt_pow_right (by omega) hc)
  simp only [h1, h2, Bool.false_eq_true, if_false]

theorem stepPow_succ_left (k t : Nat) :
    stepPow F (k + 1) t = mulStep F (stepPow F k t) := by
  induction k generalizing t with
  | zero => rfl
  | succ j ih =>
    show stepPow F (j + 1) (mulStep F t) = _
    rw [ih (mulStep F t)]
    rfl

theorem stepPow_add (a b t : Nat) :
    stepPow F (a + b) t = stepPow F a (stepPow F b t) := by
  induction b generalizing t with
  | zero => rfl
  | succ j ih =>
    have h : a + (j + 1) = (a + j) + 1 := by omega
    rw [h]
    show stepPow F (a + j) (mulStep F t) = stepPow F a (stepPow F j (mulStep F t))
    exact ih (mulStep F t)

theorem stepPow_linear (k x y : Nat) :
    stepPow F k (x ^^^ y) = stepPow F k x ^^^ stepPow F k y := by
  induction k generalizing x y with
  | zero => rfl
  | succ j ih =>
    show stepPow F j _ = _
    rw [mulStep_linear, ih]
    rfl

theorem stepPow_zero_elem (k : Nat) : stepPow F k 0 = 0 := by
  induction k with
  | zero => rfl
  | succ j ih =>
    show stepPow F j (mulStep F 0) = 0
    rw [mulStep_zero]
    exact ih

theorem stepPow_lt (hred : F.red < 2 ^ F.m) {t : Nat} (ht : t < 2 ^ F.m)
    (k : Nat) : stepPow F k t < 2 ^ F.m := by
  induction k generalizing t with
  | zero => exact ht
  | succ j ih => exact ih (mulStep_lt hred _)

theorem stepPow_one_two_pow {j : Nat} (hj : j < F.m) :
    stepPow F j 1 = 2 ^ j := by
  induction j with
  | zero => rfl
  | succ i ih =>
    have h1 : (i:Nat) + 1 = 1 + i := by omega
    rw [h1, stepPow_add, ih (by omega)]
    show mulStep F (2 ^ i) = 2 ^ (1 + i)
    rw [← h1]
    exact mulStep_two_pow (by omega)

theorem stepPow_mulStep (k t : Nat) :
    stepPow F k (mulStep F t) = mulStep F (stepPow F k t) := by
  rw [← stepPow_succ_left]
  rfl

end GF2mField

end DSTU

namespace DSTU

namespace GF2mField

variable {F : GF2mField}

theorem mulAux_normal (a : Nat) :
    ∀ fuel i acc t, mulAux F a fuel i acc t
      = acc ^^^ xorRange (fun jj => if a.testBit (i + jj) then stepPow F jj t else 0) fuel := by
  intro fuel
  induction fuel with
  | zero => intro i acc t; rw [xorRange_zero, Nat.xor_zero]; rfl
  | succ n ih =>
    intro i acc t
    show mulAux F a n (i + 1) (if a.testBit i then acc ^^^ t else acc) (mulStep F t) = _
    rw [ih, xorRange_succ_head]
    have hcong : xorRange (fun jj => if a.testBit (i + 1 + jj) then stepPow F jj (mulStep F t) else 0) n
        = xorRange (fun jj => if a.testBit (i + (jj + 1)) then stepPow F (jj + 1) t else 0) n := by
      apply xorRange_congr
      intro jj _
      have h1 : i + 1 + jj = i + (jj + 1) := by omega
      rw [h1]
      rfl
    rw [hcong]
    have h0 : (if a.testBit (i + 0) then stepPow F 0 t else 0)
        = (if a.testBit i then t else 0) := by
      rw [Nat.add_zero]
      rfl
    rw [h0]
    cases hb : a.testBit i
    · simp only [Bool.false_eq_true, if_false, Nat.zero_xor]
    · simp only [if_true]
      rw [Nat.xor_assoc]

theorem multiply_normal (a b : Nat) :
    multiply F a b = xorRange (fun i => if a.testBit i then stepPow F i b else 0) F.m := by
  unfold multiply
  rw [mulAux_normal, Nat.zero_xor]
  apply xorRange_congr
  intro i _
  rw [Nat.zero_add]

theorem multiply_xor_right (a x y : Nat) :
    multiply F a (x ^^^ y) = multiply F a x ^^^ multiply F a y := by
  rw [multiply_normal, multiply_normal, multiply_normal, ← xorRange_xor]
  apply xorRange_congr
  intro i _
  rw [stepPow_linear]
  cases a.testBit i <;> simp

theorem multiply_xor_left (a b c : Nat) :
    multiply F (a ^^^ b) c = multiply F a c ^^^ multiply F b c := by
  rw [multiply_normal, multiply_normal, multiply_normal, ← xorRange_xor]
  apply xorRange_congr
  intro i _
  rw [Nat.testBit_xor]
  cases a.testBit i <;> cases b.testBit i <;> simp

theorem multiply_zero_right (a : Nat) : multiply F a 0 = 0 := by
  rw [multiply_normal]
  apply xorRange_zero_fun
  intro i _
  rw [stepPow_zero_elem]
  cases a.testBit i <;> simp

theorem multiply_zero_left (b : Nat) : multiply F 0 b = 0 := by
  rw [multiply_normal]
  apply xorRange_zero_fun
  intro i _
  rw [Nat.zero_testBit]
  simp

theorem multiply_two_pow_left {i : Nat} (hi : i < F.m) (b : Nat) :
    multiply F (2 ^ i) b = stepPow F i b := by
  rw [multiply_normal]
  have h := xorRange_single (f := fun jj => if (2 ^ i : Nat).testBit jj then stepPow F jj b else 0)
    (n := F.m) (j := i) hi ?side
  · rw [h]
    simp [Nat.testBit_two_pow_self]
  · intro jj _ hne
    simp [Nat.testBit_two_pow_of_ne (Ne.symm hne)]

theorem multiply_one_left (hm : 0 < F.m) (b : Nat) : multiply F 1 b = b := by
  have h1 : (1:Nat) = 2 ^ 0 := rfl
  rw [h1, multiply_two_pow_left hm]
  rfl

theorem multiply_lt (hred : F.red < 2 ^ F.m) (a : Nat) {b : Nat}
    (hb : b < 2 ^ F.m) : multiply F a b < 2 ^ F.m := by
  rw [multiply_normal]
  apply xorRange_lt
  intro i _
  cases a.testBit i <;> simp only [if_true, if_false, Bool.false_eq_true]
  · exact Nat.pos_pow_of_pos F.m (by omega)
  · exact stepPow_lt hred hb i

theorem square_lt (hred : F.red < 2 ^ F.m) {a : Nat} (ha : a < 2 ^ F.m) :
    square F a < 2 ^ F.m := multiply_lt hred a ha

theorem two_pow_xor_eq_add {x m : Nat} (h : x < 2 ^ m) :
    x ^^^ 2 ^ m = x + 2 ^ m := by
  apply Nat.eq_of_testBit_eq
  intro i
  rcases Nat.lt_trichotomy i m with hi | hi | hi
  · rw [Nat.testBit_xor, Nat.testBit_two_pow_of_ne (Nat.ne_of_gt hi)]
    rw [Nat.add_comm, Nat.testBit_two_pow_add_gt hi]
    simp
  · subst hi
    rw [Nat.testBit_xor, Nat.testBit_two_pow_self, Nat.testBit_lt_two_pow h]
    rw [Nat.add_comm, Nat.testBit_two_pow_add_eq, Nat.testBit_lt_two_pow h]
    rfl
  · rw [Nat.testBit_xor, Nat.testBit_two_pow_of_ne (Nat.ne_of_lt hi)]
    have h1 : x.testBit i = false :=
      Nat.testBit_lt_two_pow (lt_trans h (Nat.pow_lt_pow_right (by omega) hi))
    have h2 : (x + 2 ^ m).testBit i = false := by
      apply Nat.testBit_lt_two_pow
      have h3 : 2 ^ (m + 1) ≤ 2 ^ i := Nat.pow_le_pow_right (by omega) hi
      have h4 : 2 ^ m + 2 ^ m ≤ 2 ^ i := by
        rw [← Nat.two_mul, ← pow_succ'] at *
        exact h3
      omega
    rw [h1, h2]
    rfl

theorem bit_decomp : ∀ (m : Nat) (a : Nat), a < 2 ^ m →
    xorRange (fun i => if a.testBit i then 2 ^ i else 0) m = a := by
  intro m
  induction m with
  | zero =>
    intro a ha
    have h0 : a = 0 := by omega
    subst h0
    rfl
  | succ k ih =>
    intro a ha
    rw [xorRange_succ]
    have hq : a / 2 ^ k = 0 ∨ a / 2 ^ k = 1 := by
      have hk : 0 < 2 ^ k := Nat.pos_pow_of_pos k (by omega)
      have h2 : a / 2 ^ k < 2 := by
        rw [Nat.div_lt_iff_lt_mul hk, ← pow_succ']
        exact ha
      generalize hg : a / 2 ^ k = q at h2 ⊢
      omega
    have hdm := Nat.div_add_mod a (2 ^ k)
    have hmod : a % 2 ^ k < 2 ^ k := Nat.mod_lt _ (Nat.pos_pow_of_pos k (by omega))
    have hlow : xorRange (fun i => if a.testBit i then 2 ^ i else 0) k
        = a % 2 ^ k := by
      have hcong : xorRange (fun i => if a.testBit i then 2 ^ i else 0) k
          = xorRange (fun i => if (a % 2 ^ k).testBit i then 2 ^ i else 0) k := by
        apply xorRange_congr
        intro i hi
        rw [Nat.testBit_mod_two_pow]
        simp [hi]
      rw [hcong]
      exact ih _ hmod
    rw [hlow, Nat.testBit_to_div_mod]
    rcases hq with hq | hq <;> rw [hq] at hdm ⊢ <;> simp at hdm ⊢
    · omega
    · rw [two_pow_xor_eq_add hmod]
      omega

end GF2mField

end DSTU

namespace DSTU

namespace GF2mField

variable {F : GF2mField}

theorem mulStep_xorRange (f : Nat → Nat) (n : Nat) :
    mulStep F (xorRange f n) = xorRange (fun i => mulStep F (f i)) n := by
  induction n with
  | zero => exact mulStep_zero
  | succ k ih => rw [xorRange_succ, xorRange_succ, mulStep_linear, ih]

theorem multiply_xorRange_right (a : Nat) (f : Nat → Nat) (n : Nat) :
    multiply F a (xorRange f n) = xorRange (fun i => multiply F a (f i)) n := by
  induction n with
  | zero => exact multiply_zero_right a
  | succ k ih => rw [xorRange_succ, xorRange_succ, multiply_xor_right, ih]

theorem multiply_xorRange_left (f : Nat → Nat) (n : Nat) (c : Nat) :
    multiply F (xorRange f n) c = xorRange (fun i => multiply F (f i) c) n := by
  induction n with
  | zero => exact multiply_zero_left c
  | succ k ih => rw [xorRange_succ, xorRange_succ, multiply_xor_left, ih]

theorem multiply_one_right (hm : 0 < F.m) {a : Nat} (ha : a < 2 ^ F.m) :
    multiply F a 1 = a := by
  rw [multiply_normal]
  have hcong : xorRange (fun i => if a.testBit i then stepPow F i 1 else 0) F.m
      = xorRange (fun i => if a.testBit i then 2 ^ i else 0) F.m := by
    apply xorRange_congr
    intro i hi
    rw [stepPow_one_two_pow hi]
  rw [hcong]
  exact bit_decomp F.m a ha

theorem multiply_mulStep_right (a t : Nat) :
    multiply F a (mulStep F t) = mulStep F (multiply F a t) := by
  rw [multiply_normal, multiply_normal, mulStep_xorRange]
  apply xorRange_congr
  intro i _
  cases a.testBit i <;> simp only [if_true, if_false, Bool.false_eq_true]
  · exact mulStep_zero.symm
  · exact stepPow_mulStep i t

theorem multiply_stepPow_right (a : Nat) (k y : Nat) :
    multiply F a (stepPow F k y) = stepPow F k (multiply F a y) := by
  induction k generalizing y with
  | zero => rfl
  | succ j ih =>
    show multiply F a (stepPow F j (mulStep F y)) = _
    rw [ih (mulStep F y), multiply_mulStep_right]
    rfl

theorem multiply_comm (hm : 0 < F.m) {a b : Nat} (ha : a < 2 ^ F.m)
    (hb : b < 2 ^ F.m) : multiply F a b = multiply F b a := by
  conv_lhs => rw [← bit_decomp F.m b hb]
  rw [multiply_xorRange_right]
  have hcong : xorRange (fun j => multiply F a (if b.testBit j then 2 ^ j else 0)) F.m
      = xorRange (fun j => if b.testBit j then stepPow F j a else 0) F.m := by
    apply xorRange_congr
    intro j hj
    cases hbj : b.testBit j <;> simp only [if_true, if_false, Bool.false_eq_true]
    · exact multiply_zero_right a
    · rw [← stepPow_one_two_pow hj, multiply_stepPow_right,
        multiply_one_right hm ha]
  rw [hcong, ← multiply_normal]

theorem multiply_assoc (hm : 0 < F.m) (hred : F.red < 2 ^ F.m) {a b c : Nat}
    (ha : a < 2 ^ F.m) (hb : b < 2 ^ F.m) (hc : c < 2 ^ F.m) :
    multiply F (multiply F a b) c = multiply F a (multiply F b c) := by
  conv_lhs => rw [multiply_normal (F := F) a b]
  rw [multiply_xorRange_left]
  have hcong : xorRange (fun i => multiply F (if a.testBit i then stepPow F i b else 0) c) F.m
      = xorRange (fun i => if a.testBit i then stepPow F i (multiply F b c) else 0) F.m := by
    apply xorRange_congr
    intro i hi
    cases hai : a.testBit i <;> simp only [if_true, if_false, Bool.false_eq_true]
    · exact multiply_zero_left c
    · rw [multiply_comm hm (stepPow_lt hred hb i) hc, multiply_stepPow_right,
        multiply_comm hm hc hb]
  rw [hcong, ← multiply_normal]

theorem square_xor (hm : 0 < F.m) {a b : Nat} (ha : a < 2 ^ F.m)
    (hb : b < 2 ^ F.m) : square F (a ^^^ b) = square F a ^^^ square F b := by
  unfold square
  rw [multiply_xor_left, multiply_xor_right, multiply_xor_right,
    multiply_comm hm hb ha]
  rw [Nat.xor_assoc, ← Nat.xor_assoc (multiply F a b), Nat.xor_self,
    Nat.zero_xor]

theorem square_zero : square F 0 = 0 := multiply_zero_left 0

end GF2mField

end DSTU

namespace DSTU

namespace GF2mField

variable {F : GF2mField}

theorem square_one (hm : 0 < F.m) : square F 1 = 1 :=
  multiply_one_left hm 1

theorem sqIter_succ_left (k a : Nat) :
    sqIter F (k + 1) a = square F (sqIter F k a) := by
  induction k generalizing a with
  | zero => rfl
  | succ j ih =>
    show sqIter F (j + 1) (square F a) = _
    rw [ih (square F a)]
    rfl

theorem sqIter_add (i j a : Nat) :
    sqIter F (i + j) a = sqIter F i (sqIter F j a) := by
  induction j generalizing a with
  | zero => rfl
  | succ k ih =>
    have h : i + (k + 1) = (i + k) + 1 := by omega
    rw [h]
    show sqIter F (i + k) (square F a) = sqIter F i (sqIter F k (square F a))
    exact ih (square F a)

theorem sqIter_zero_elem (k : Nat) : sqIter F k 0 = 0 := by
  induction k with
  | zero => rfl
  | succ j ih =>
    show sqIter F j (square F 0) = 0
    rw [square_zero]
    exact ih

theorem sqIter_one (hm : 0 < F.m) (k : Nat) : sqIter F k 1 = 1 := by
  induction k with
  | zero => rfl
  | succ j ih =>
    show sqIter F j (square F 1) = 1
    rw [square_one hm]
    exact ih

theorem sqIter_lt (hred : F.red < 2 ^ F.m) {a : Nat} (ha : a < 2 ^ F.m)
    (k : Nat) : sqIter F k a < 2 ^ F.m := by
  induction k generalizing a with
  | zero => exact ha
  | succ j ih => exact ih (square_lt hred ha)

theorem sqIter_linear (hm : 0 < F.m) (hred : F.red < 2 ^ F.m) {a b : Nat}
    (ha : a < 2 ^ F.m) (hb : b < 2 ^ F.m) (k : Nat) :
    sqIter F k (a ^^^ b) = sqIter F k a ^^^ sqIter F k b := by
  induction k generalizing a b with
  | zero => rfl
  | succ j ih =>
    show sqIter F j (square F (a ^^^ b)) = _
    rw [square_xor hm ha hb, ih (square_lt hred ha) (square_lt hred hb)]
    rfl

theorem sqIter_square_comm (k a : Nat) :
    sqIter F k (square F a) = square F (sqIter F k a) := by
  rw [← sqIter_succ_left]
  rfl

theorem square_stepPow_one (hm : 0 < F.m) (hred : F.red < 2 ^ F.m) (k : Nat) :
    square F (stepPow F k 1) = stepPow F (k + k) 1 := by
  have h1 : (1:Nat) < 2 ^ F.m := Nat.one_lt_two_pow_iff.mpr (by omega)
  unfold square
  rw [show multiply F (stepPow F k 1) (stepPow F k 1)
      = stepPow F k (multiply F (stepPow F k 1) 1) from
    multiply_stepPow_right (stepPow F k 1) k 1]
  rw [multiply_one_right hm (stepPow_lt hred h1 k), ← stepPow_add]

theorem sqIter_stepPow_one (hm : 0 < F.m) (hred : F.red < 2 ^ F.m)
    (j k : Nat) : sqIter F j (stepPow F k 1) = stepPow F (2 ^ j * k) 1 := by
  induction j generalizing k with
  | zero => rw [pow_zero, Nat.one_mul]; rfl
  | succ i ih =>
    show sqIter F i (square F (stepPow F k 1)) = _
    rw [square_stepPow_one hm hred k, ih (k + k)]
    congr 1
    rw [pow_succ]
    ring

theorem stepPow_one_mul (hm : 0 < F.m) (hred : F.red < 2 ^ F.m)
    (a b : Nat) : multiply F (stepPow F a 1) (stepPow F b 1)
      = stepPow F (a + b) 1 := by
  have h1 : (1:Nat) < 2 ^ F.m := Nat.one_lt_two_pow_iff.mpr (by omega)
  rw [multiply_stepPow_right, multiply_one_right hm (stepPow_lt hred h1 a),
    ← stepPow_add, Nat.add_comm]

theorem stepPow_one_period (hm : 0 < F.m) (hred : F.red < 2 ^ F.m)
    (hT : stepPow F (2 ^ F.m) 1 = stepPow F 1 1) (i : Nat) :
    stepPow F (2 ^ F.m * i) 1 = stepPow F i 1 := by
  induction i with
  | zero => rw [Nat.mul_zero]
  | succ j ih =>
    have h : 2 ^ F.m * (j + 1) = 2 ^ F.m * j + 2 ^ F.m := by ring
    rw [h, ← stepPow_one_mul hm hred, ih, hT, stepPow_one_mul hm hred]

theorem stepPow_one_one (hm2 : 2 ≤ F.m) : stepPow F 1 1 = 2 := by
  show mulStep F 1 = 2
  unfold mulStep
  have hb : Nat.testBit 1 (F.m - 1) = false := by
    rw [show (1:Nat) = 2 ^ 0 from rfl]
    exact Nat.testBit_two_pow_of_ne (by omega)
  have h2 : (2 * 1 : Nat) % 2 ^ F.m = 2 := by
    apply Nat.mod_eq_of_lt
    calc (2 * 1 : Nat) = 2 ^ 1 := by norm_num
    _ < 2 ^ F.m := Nat.pow_lt_pow_right (by omega) (by omega)
  rw [hb]
  simp only [Bool.false_eq_true, if_false]
  exact h2

theorem frobenius_basis (hm2 : 2 ≤ F.m) (hred : F.red < 2 ^ F.m)
    (ht : sqIter F F.m 2 = 2) {i : Nat} (hi : i < F.m) :
    sqIter F F.m (2 ^ i) = 2 ^ i := by
  have hm : 0 < F.m := by omega
  have hT : stepPow F (2 ^ F.m) 1 = stepPow F 1 1 := by
    have h1 : sqIter F F.m 2 = stepPow F (2 ^ F.m) 1 := by
      conv_lhs => rw [← stepPow_one_one hm2]
      rw [sqIter_stepPow_one hm hred, Nat.mul_one]
    rw [← h1, ht, stepPow_one_one hm2]
  rw [← stepPow_one_two_pow hi, sqIter_stepPow_one hm hred,
    stepPow_one_period hm hred hT, stepPow_one_two_pow hi]

theorem sqIter_xorRange (hm : 0 < F.m) (hred : F.red < 2 ^ F.m) (k : Nat)
    {f : Nat → Nat} : ∀ {n : Nat}, (∀ i, i < n → f i < 2 ^ F.m) →
    sqIter F k (xorRange f n) = xorRange (fun i => sqIter F k (f i)) n := by
  intro n
  induction n with
  | zero =>
    intro _
    rw [xorRange_zero, xorRange_zero, sqIter_zero_elem]
  | succ j ih =>
    intro hf
    rw [xorRange_succ, xorRange_succ,
      sqIter_linear hm hred (xorRange_lt (fun i hi => hf i (by omega)))
        (hf j (by omega)) k,
      ih (fun i hi => hf i (by omega))]

theorem frobenius_all (hm2 : 2 ≤ F.m) (hred : F.red < 2 ^ F.m)
    (ht : sqIter F F.m 2 = 2) {a : Nat} (ha : a < 2 ^ F.m) :
    sqIter F F.m a = a := by
  have hm : 0 < F.m := by omega
  conv_lhs => rw [← bit_decomp F.m a ha]
  rw [sqIter_xorRange hm hred F.m (fun i _ => by
    cases h : a.testBit i
    · simp only [Bool.false_eq_true, if_false]
      exact Nat.pos_pow_of_pos F.m (by omega)
    · simp only [if_true]
      exact Nat.pow_lt_pow_right (by omega) (by
        by_contra hc
        push_neg at hc
        have : a.testBit i = false :=
          Nat.testBit_lt_two_pow (lt_of_lt_of_le ha (Nat.pow_le_pow_right (by omega) hc))
        rw [this] at h
        cases h))]
  have hcong : xorRange (fun i => sqIter F F.m (if a.testBit i then 2 ^ i else 0)) F.m
      = xorRange (fun i => if a.testBit i then 2 ^ i else 0) F.m := by
    apply xorRange_congr
    intro i hi
    cases h : a.testBit i
    · simp only [Bool.false_eq_true, if_false]
      exact sqIter_zero_elem F.m
    · simp only [if_true]
      exact frobenius_basis hm2 hred ht hi
  rw [hcong, bit_decomp F.m a ha]

end GF2mField

end DSTU

namespace DSTU

namespace GF2mField

variable {F : GF2mField}

theorem traceAux_normal (k : Nat) :
    ∀ r t, traceAux F k r t = r ^^^ xorRange (fun i => sqIter F (i + 1) t) k := by
  induction k with
  | zero =>
    intro r t
    rw [xorRange_zero, Nat.xor_zero]
    rfl
  | succ j ih =>
    intro r t
    show traceAux F j (r ^^^ square F t) (square F t) = _
    rw [ih, xorRange_succ_head]
    have hc : xorRange (fun i => sqIter F (i + 1) (square F t)) j
        = xorRange (fun i => sqIter F (i + 1 + 1) t) j := by
      apply xorRange_congr
      intro i _
      rfl
    rw [hc]
    have h0 : sqIter F (0 + 1) t = square F t := rfl
    rw [h0, Nat.xor_assoc]

theorem trSum_normal (hm : 0 < F.m) (a : Nat) :
    trSum F a = xorRange (fun i => sqIter F i a) F.m := by
  unfold trSum
  rw [traceAux_normal]
  have hm1 : F.m = (F.m - 1) + 1 := by omega
  conv_rhs => rw [hm1, xorRange_succ_head]
  have h0 : sqIter F 0 a = a := rfl
  rw [h0]

theorem trSum_additive (hm : 0 < F.m) (hred : F.red < 2 ^ F.m) {a b : Nat}
    (ha : a < 2 ^ F.m) (hb : b < 2 ^ F.m) :
    trSum F (a ^^^ b) = trSum F a ^^^ trSum F b := by
  rw [trSum_normal hm, trSum_normal hm, trSum_normal hm, ← xorRange_xor]
  apply xorRange_congr
  intro i _
  exact sqIter_linear hm hred ha hb i

theorem trSum_lt (hm : 0 < F.m) (hred : F.red < 2 ^ F.m) {a : Nat}
    (ha : a < 2 ^ F.m) : trSum F a < 2 ^ F.m := by
  rw [trSum_normal hm]
  exact xorRange_lt (fun i _ => sqIter_lt hred ha i)

theorem trace_additive (hm : 0 < F.m) (hred : F.red < 2 ^ F.m) {a b : Nat}
    (ha : a < 2 ^ F.m) (hb : b < 2 ^ F.m) :
    trace F (a ^^^ b) = trace F a ^^^ trace F b := by
  unfold trace
  rw [trSum_additive hm hred ha hb]
  have h2 : (2:Nat) = 2 ^ 1 := rfl
  rw [h2, mod_two_pow_xor]

theorem xorRange_const_one (n : Nat) :
    xorRange (fun _ => 1) n = n % 2 := by
  induction n with
  | zero => rfl
  | succ k ih =>
    rw [xorRange_succ, ih]
    rcases Nat.mod_two_eq_zero_or_one k with h | h <;> rw [h]
    · have h1 : (0:Nat) ^^^ 1 = 1 := rfl
      rw [h1]
      omega
    · have h1 : (1:Nat) ^^^ 1 = 0 := rfl
      rw [h1]
      omega

theorem trSum_one (hm : 0 < F.m) : trSum F 1 = F.m % 2 := by
  rw [trSum_normal hm]
  have hc : xorRange (fun i => sqIter F i 1) F.m = xorRange (fun _ => 1) F.m := by
    apply xorRange_congr
    intro i _
    exact sqIter_one hm i
  rw [hc, xorRange_const_one]

theorem trace_one (hodd : F.m % 2 = 1) : trace F 1 = 1 := by
  unfold trace
  rw [trSum_one (by omega), hodd]

theorem trace_zero_elem : trace F 0 = 0 := by
  unfold trace trSum
  have h : traceAux F (F.m - 1) 0 0 = 0 := by
    rw [traceAux_normal]
    rw [xorRange_zero_fun (fun i _ => by rw [sqIter_zero_elem])]
    simp
  rw [h]

theorem trSum_square (hm2 : 2 ≤ F.m) (hred : F.red < 2 ^ F.m)
    (ht : sqIter F F.m 2 = 2) {a : Nat} (ha : a < 2 ^ F.m) :
    trSum F (square F a) = trSum F a := by
  have hm : 0 < F.m := by omega
  rw [trSum_normal hm, trSum_normal hm]
  have hshift : ∀ i, sqIter F i (square F a) = sqIter F (i + 1) a := by
    intro i
    rfl
  have hc : xorRange (fun i => sqIter F i (square F a)) F.m
      = xorRange (fun i => sqIter F (i + 1) a) F.m := by
    apply xorRange_congr
    intro i _
    exact hshift i
  rw [hc]
  have hsum : xorRange (fun i => sqIter F (i + 1) a) F.m
      = sqIter F 0 a ^^^ xorRange (fun i => sqIter F i a) (F.m + 1) := by
    rw [xorRange_succ_head]
    rw [← Nat.xor_assoc, Nat.xor_self, Nat.zero_xor]
  rw [hsum, xorRange_succ, frobenius_all hm2 hred ht ha]
  show a ^^^ (xorRange (fun i => sqIter F i a) F.m ^^^ a) = _
  rw [Nat.xor_comm (xorRange (fun i => sqIter F i a) F.m) a, ← Nat.xor_assoc,
    Nat.xor_self, Nat.zero_xor]

theorem square_trSum (hm2 : 2 ≤ F.m) (hred : F.red < 2 ^ F.m)
    (ht : sqIter F F.m 2 = 2) {a : Nat} (ha : a < 2 ^ F.m) :
    square F (trSum F a) = trSum F a := by
  have hm : 0 < F.m := by omega
  have h1 : square F (trSum F a) = trSum F (square F a) := by
    rw [trSum_normal hm, trSum_normal hm]
    rw [show square F (xorRange (fun i => sqIter F i a) F.m)
        = sqIter F 1 (xorRange (fun i => sqIter F i a) F.m) from rfl]
    rw [sqIter_xorRange hm hred 1 (fun i _ => sqIter_lt hred ha i)]
    apply xorRange_congr
    intro i _
    show sqIter F 1 (sqIter F i a) = sqIter F i (square F a)
    rw [← sqIter_add]
    have h2 : 1 + i = i + 1 := by omega
    rw [h2]
    rfl
  rw [h1, trSum_square hm2 hred ht ha]

theorem htrAux_normal (k : Nat) :
    ∀ r t, htrAux F k r t
      = r ^^^ xorRange (fun i => sqIter F (2 * (i + 1)) t) k := by
  induction k with
  | zero =>
    intro r t
    rw [xorRange_zero, Nat.xor_zero]
    rfl
  | succ j ih =>
    intro r t
    show htrAux F j (r ^^^ square F (square F t)) (square F (square F t)) = _
    rw [ih, xorRange_succ_head]
    have hc : xorRange (fun i => sqIter F (2 * (i + 1)) (square F (square F t))) j
        = xorRange (fun i => sqIter F (2 * (i + 1 + 1)) t) j := by
      apply xorRange_congr
      intro i _
      show sqIter F (2 * (i + 1)) (sqIter F 2 t) = _
      rw [← sqIter_add]
      have h2 : 2 * (i + 1) + 2 = 2 * (i + 1 + 1) := by omega
      rw [h2]
    rw [hc]
    have h0 : sqIter F (2 * (0 + 1)) t = square F (square F t) := rfl
    rw [h0, Nat.xor_assoc]

end GF2mField

end DSTU

namespace DSTU

namespace GF2mField

variable {F : GF2mField}

theorem htr_telescope (v : Nat) : ∀ k : Nat,
    v ^^^ sqIter F 1 v
      ^^^ (xorRange (fun i => sqIter F (2 * (i + 1)) v) k
        ^^^ xorRange (fun i => sqIter F (2 * (i + 1) + 1) v) k)
    = xorRange (fun j => sqIter F j v) (2 * k + 2) := by
  intro k
  induction k with
  | zero =>
    rw [xorRange_zero, xorRange_zero]
    have h2 : 2 * 0 + 2 = 1 + 1 := by omega
    rw [h2, xorRange_succ, xorRange_succ, xorRange_zero]
    have h0 : sqIter F 0 v = v := rfl
    rw [h0]
    simp [Nat.xor_assoc, Nat.xor_comm, xor_left_comm]
  | succ k ih =>
    rw [xorRange_succ (fun i => sqIter F (2 * (i + 1)) v) k,
      xorRange_succ (fun i => sqIter F (2 * (i + 1) + 1) v) k]
    have h2 : 2 * (k + 1) + 2 = (2 * k + 2) + 1 + 1 := by omega
    rw [h2, xorRange_succ, xorRange_succ, ← ih]
    have h3 : 2 * k + 2 = 2 * (k + 1) := by omega
    have h4 : 2 * k + 2 + 1 = 2 * (k + 1) + 1 := by omega
    rw [h3, h4]
    simp [Nat.xor_assoc, Nat.xor_comm, xor_left_comm]

theorem htr_equation (hm2 : 2 ≤ F.m) (hodd : F.m % 2 = 1)
    (hred : F.red < 2 ^ F.m) (ht : sqIter F F.m 2 = 2) {v : Nat}
    (hv : v < 2 ^ F.m) :
    square F (htrAux F ((F.m - 1) / 2) v v)
      ^^^ htrAux F ((F.m - 1) / 2) v v ^^^ v = trSum F v := by
  have hm : 0 < F.m := by omega
  set k := (F.m - 1) / 2 with hkdef
  have hk : 2 * k + 2 = F.m + 1 := by omega
  have hX : htrAux F k v v
      = v ^^^ xorRange (fun i => sqIter F (2 * (i + 1)) v) k :=
    htrAux_normal k v v
  set X := xorRange (fun i => sqIter F (2 * (i + 1)) v) k with hXdef
  have hXlt : X < 2 ^ F.m :=
    xorRange_lt (fun i _ => sqIter_lt hred hv _)
  have hsqz : square F (htrAux F k v v) = square F v ^^^ square F X := by
    rw [hX, square_xor hm hv hXlt]
  have hsqX : square F X
      = xorRange (fun i => sqIter F (2 * (i + 1) + 1) v) k := by
    rw [show square F X = sqIter F 1 X from rfl, hXdef,
      sqIter_xorRange hm hred 1 (fun i _ => sqIter_lt hred hv _)]
    apply xorRange_congr
    intro i _
    rw [← sqIter_add]
    have h1 : 1 + 2 * (i + 1) = 2 * (i + 1) + 1 := by omega
    rw [h1]
  have hsqv : square F v = sqIter F 1 v := rfl
  rw [hsqz, hX, hsqX, hsqv]
  have htele := htr_telescope (F := F) v k
  have hT : xorRange (fun j => sqIter F j v) (2 * k + 2)
      = trSum F v ^^^ v := by
    rw [hk, xorRange_succ, frobenius_all hm2 hred ht hv, ← trSum_normal hm]
  rw [hT] at htele
  calc sqIter F 1 v ^^^ xorRange (fun i => sqIter F (2 * (i + 1) + 1) v) k
        ^^^ (v ^^^ X) ^^^ v
      = v ^^^ sqIter F 1 v
        ^^^ (X ^^^ xorRange (fun i => sqIter F (2 * (i + 1) + 1) v) k) ^^^ v := by
        simp [Nat.xor_assoc, Nat.xor_comm, xor_left_comm]
    _ = (trSum F v ^^^ v) ^^^ v := by rw [htele]
    _ = trSum F v := by rw [Nat.xor_assoc, Nat.xor_self, Nat.xor_zero]

end GF2mField

end DSTU

namespace DSTU

namespace GF2mField

variable {F : GF2mField}

theorem fastStep_eq (hm : 0 < F.m) {t : Nat} (ht : t < 2 ^ F.m) :
    fastStep (2 ^ F.m) F.red t = mulStep F t := by
  have hshow : fastStep (2 ^ F.m) F.red t
      = (2 * t % 2 ^ F.m) ^^^ (2 * t / 2 ^ F.m * F.red) := rfl
  have hms : mulStep F t
      = if t.testBit (F.m - 1) = true then (2 * t % 2 ^ F.m) ^^^ F.red
        else 2 * t % 2 ^ F.m := rfl
  have hm1 : 2 ^ F.m = 2 * 2 ^ (F.m - 1) := by
    rw [← pow_succ']
    congr 1
    omega
  have hdiv : 2 * t / 2 ^ F.m = t / 2 ^ (F.m - 1) := by
    rw [hm1, Nat.mul_div_mul_left _ _ (by omega)]
  have hq : t / 2 ^ (F.m - 1) < 2 := by
    rw [Nat.div_lt_iff_lt_mul (Nat.pos_pow_of_pos _ (by omega)), ← hm1]
    exact ht
  have htb : t.testBit (F.m - 1) = decide (t / 2 ^ (F.m - 1) % 2 = 1) :=
    Nat.testBit_to_div_mod
  rw [hshow, hms, hdiv, htb]
  generalize hgq : t / 2 ^ (F.m - 1) = q at hq ⊢
  interval_cases q <;> norm_num

theorem fastMulAux_eq (hm : 0 < F.m) (hred : F.red < 2 ^ F.m) (a : Nat) :
    ∀ fuel i acc t, t < 2 ^ F.m →
      mulAux F a fuel i acc t
        = fastMulAux (2 ^ F.m) F.red fuel (a / 2 ^ i) acc t := by
  intro fuel
  induction fuel with
  | zero => intro i acc t _; rfl
  | succ n ih =>
    intro i acc t ht
    show mulAux F a n (i + 1) (if a.testBit i then acc ^^^ t else acc) (mulStep F t)
      = fastMulAux (2 ^ F.m) F.red n (a / 2 ^ i / 2)
          (acc ^^^ a / 2 ^ i % 2 * t) (fastStep (2 ^ F.m) F.red t)
    rw [fastStep_eq hm ht]
    have hdd : a / 2 ^ i / 2 = a / 2 ^ (i + 1) := by
      rw [Nat.div_div_eq_div_mul, pow_succ]
    have htb : a.testBit i = decide (a / 2 ^ i % 2 = 1) :=
      Nat.testBit_to_div_mod
    have hacc : (if a.testBit i then acc ^^^ t else acc)
        = acc ^^^ a / 2 ^ i % 2 * t := by
      rw [htb]
      rcases Nat.mod_two_eq_zero_or_one (a / 2 ^ i) with h | h <;> rw [h]
      · norm_num
      · norm_num
    rw [hacc, hdd]
    exact ih (i + 1) (acc ^^^ a / 2 ^ i % 2 * t) (mulStep F t)
      (mulStep_lt hred t)

theorem fastMul_eq (hm : 0 < F.m) (hred : F.red < 2 ^ F.m) (a : Nat)
    {b : Nat} (hb : b < 2 ^ F.m) :
    multiply F a b = fastMul (2 ^ F.m) F.red F.m a b := by
  unfold multiply fastMul
  have h := fastMulAux_eq hm hred a F.m 0 0 b hb
  rw [pow_zero, Nat.div_one] at h
  exact h

theorem fastSquare_eq (hm : 0 < F.m) (hred : F.red < 2 ^ F.m) {a : Nat}
    (ha : a < 2 ^ F.m) :
    square F a = fastSquare (2 ^ F.m) F.red F.m a :=
  fastMul_eq hm hred a ha

theorem fastTraceAux_eq (hm : 0 < F.m) (hred : F.red < 2 ^ F.m) :
    ∀ k r t, t < 2 ^ F.m →
      traceAux F k r t = fastTraceAux (2 ^ F.m) F.red F.m k r t := by
  intro k
  induction k with
  | zero => intro r t _; rfl
  | succ n ih =>
    intro r t ht
    show traceAux F n (r ^^^ square F t) (square F t) = _
    rw [ih (r ^^^ square F t) (square F t) (square_lt hred ht),
      fastSquare_eq hm hred ht]
    show _ = (fun s => if s = 0 then
        fastTraceAux (2 ^ F.m) F.red F.m n (Nat.xor r s) s
      else fastTraceAux (2 ^ F.m) F.red F.m n (Nat.xor r s) s)
        (fastSquare (2 ^ F.m) F.red F.m t)
    simp only [ite_self]
    rfl

theorem fastTrSum_eq (hm : 0 < F.m) (hred : F.red < 2 ^ F.m) {a : Nat}
    (ha : a < 2 ^ F.m) :
    trSum F a = fastTrSum (2 ^ F.m) F.red F.m a :=
  fastTraceAux_eq hm hred (F.m - 1) a a ha

theorem fastTrace_eq (hm : 0 < F.m) (hred : F.red < 2 ^ F.m) {a : Nat}
    (ha : a < 2 ^ F.m) :
    trace F a = fastTrSum (2 ^ F.m) F.red F.m a % 2 := by
  unfold trace
  rw [fastTrSum_eq hm hred ha]

theorem fastSqIter_eq (hm : 0 < F.m) (hred : F.red < 2 ^ F.m) :
    ∀ k {a : Nat}, a < 2 ^ F.m →
      sqIter F k a = fastSqIter (2 ^ F.m) F.red F.m k a := by
  intro k
  induction k with
  | zero => intro a _; rfl
  | succ n ih =>
    intro a ha
    show sqIter F n (square F a) = _
    rw [ih (square_lt hred ha), fastSquare_eq hm hred ha]
    show _ = (fun s => if s = 0 then fastSqIter (2 ^ F.m) F.red F.m n s
        else fastSqIter (2 ^ F.m) F.red F.m n s)
        (fastSquare (2 ^ F.m) F.red F.m a)
    simp only [ite_self]

theorem fastPowAux_eq (hm : 0 < F.m) (hred : F.red < 2 ^ F.m) :
    ∀ fuel e r b, b < 2 ^ F.m →
      powAux F fuel e r b = fastPowAux (2 ^ F.m) F.red F.m fuel e r b := by
  intro fuel
  induction fuel with
  | zero => intro e r b _; rfl
  | succ n ih =>
    intro e r b hb
    show (if e = 0 then r else powAux F n (e / 2)
        (if e % 2 = 1 then multiply F r b else r) (square F b)) = _
    by_cases he : e = 0
    · simp only [he, if_true]
      rfl
    · rw [if_neg he]
      have hrhs : fastPowAux (2 ^ F.m) F.red F.m (n + 1) e r b
          = fastPowAux (2 ^ F.m) F.red F.m n (e / 2)
              (if e % 2 = 1 then fastMul (2 ^ F.m) F.red F.m r b else r)
              (fastSquare (2 ^ F.m) F.red F.m b) := by
        show (if e = 0 then r else
            (fun r2 b2 => if r2 + b2 = 0 then
              fastPowAux (2 ^ F.m) F.red F.m n (Nat.div e 2) r2 b2
            else fastPowAux (2 ^ F.m) F.red F.m n (Nat.div e 2) r2 b2)
            (if Nat.mod e 2 = 1 then fastMul (2 ^ F.m) F.red F.m r b else r)
            (fastSquare (2 ^ F.m) F.red F.m b)) = _
        rw [if_neg he]
        simp only [ite_self]
        rfl
      rw [hrhs, ih (e / 2) _ _ (square_lt hred hb),
        fastSquare_eq hm hred hb]
      congr 1
      rw [fastMul_eq hm hred r hb]

theorem fastPow_eq (hm : 0 < F.m) (hred : F.red < 2 ^ F.m) {a : Nat}
    (ha : a < 2 ^ F.m) (n : Nat) :
    power F a n = fastPow (2 ^ F.m) F.red F.m a n := by
  unfold power fastPow
  by_cases h0 : n = 0
  · rw [if_pos h0, if_pos h0]
    rfl
  · rw [if_neg h0, if_neg h0]
    by_cases h1 : n = 1
    · rw [if_pos h1, if_pos h1]
    · rw [if_neg h1, if_neg h1]
      exact fastPowAux_eq hm hred n n (element_from_int F 1) a ha

end GF2mField

end DSTU

namespace DSTU

/-! ## Bit-parity machinery -/

theorem xorRange_add (f : Nat → Nat) (n k : Nat) :
    xorRange f (n + k) = xorRange f n ^^^ xorRange (fun i => f (n + i)) k := by
  induction k with
  | zero => rw [Nat.add_zero, xorRange_zero, Nat.xor_zero]
  | succ j ih =>
    rw [show n + (j + 1) = (n + j) + 1 from rfl, xorRange_succ, ih,
      xorRange_succ, Nat.xor_assoc]

theorem parityW_zero_elem (w : Nat) : parityW w 0 = 0 :=
  xorRange_zero_fun (fun i _ => by rw [Nat.zero_testBit]; rfl)

theorem ite_bit_xor (a b i : Nat) :
    (if (a ^^^ b).testBit i then 1 else 0)
      = ((if a.testBit i then 1 else 0) ^^^ (if b.testBit i then (1:Nat) else 0)) := by
  rw [Nat.testBit_xor]
  cases a.testBit i <;> cases b.testBit i <;> rfl

theorem parityW_xor (w a b : Nat) :
    parityW w (a ^^^ b) = parityW w a ^^^ parityW w b := by
  unfold parityW
  rw [← xorRange_xor]
  exact xorRange_congr (fun i _ => ite_bit_xor a b i)

theorem parityW_halve {w k : Nat} (v : Nat) (h : w = k + k) :
    parityW w v = parityW k (pfold k v) := by
  subst h
  unfold parityW pfold
  rw [xorRange_add]
  have hc : xorRange (fun i => if ((v ^^^ v >>> k) % 2 ^ k).testBit i then 1 else 0) k
      = xorRange (fun i =>
          (if v.testBit i then 1 else 0) ^^^ (if v.testBit (k + i) then (1:Nat) else 0)) k := by
    apply xorRange_congr
    intro i hi
    rw [Nat.testBit_mod_two_pow]
    have hd : decide (i < k) = true := decide_eq_true hi
    rw [hd, Bool.true_and, Nat.testBit_xor, Nat.testBit_shiftRight]
    cases v.testBit i <;> cases v.testBit (k + i) <;> rfl
  rw [hc, xorRange_xor]

theorem parityW_one_bit (v : Nat) : parityW 1 v = v % 2 := by
  unfold parityW
  rw [show (1:Nat) = 0 + 1 from rfl, xorRange_succ, xorRange_zero, Nat.zero_xor]
  rw [Nat.testBit_zero]
  rcases Nat.mod_two_eq_zero_or_one v with h | h <;> simp [h]

theorem pfold_lt (k v : Nat) : pfold k v < 2 ^ k :=
  Nat.mod_lt _ (Nat.pos_pow_of_pos k (by omega))

theorem parity256_eq (v : Nat) : parity256 v = parityW 256 v := by
  conv_rhs =>
    rw [parityW_halve v (by norm_num : (256:Nat) = 128 + 128),
      parityW_halve _ (by norm_num : (128:Nat) = 64 + 64),
      parityW_halve _ (by norm_num : (64:Nat) = 32 + 32),
      parityW_halve _ (by norm_num : (32:Nat) = 16 + 16),
      parityW_halve _ (by norm_num : (16:Nat) = 8 + 8),
      parityW_halve _ (by norm_num : (8:Nat) = 4 + 4),
      parityW_halve _ (by norm_num : (4:Nat) = 2 + 2),
      parityW_halve _ (by norm_num : (2:Nat) = 1 + 1),
      parityW_one_bit]
  unfold parity256
  have h := pfold_lt 1 (pfold 2 (pfold 4 (pfold 8 (pfold 16 (pfold 32 (pfold 64 (pfold 128 v)))))))
  omega

theorem parityW_extend {w w2 v : Nat} (hv : v < 2 ^ w) (hw : w ≤ w2) :
    parityW w2 v = parityW w v := by
  unfold parityW
  have h : w2 = w + (w2 - w) := by omega
  rw [h, xorRange_add]
  have h0 : xorRange (fun i => if v.testBit (w + i) = true then 1 else 0)
      (w2 - w) = 0 := by
    apply xorRange_zero_fun
    intro i _
    have hb : v.testBit (w + i) = false :=
      Nat.testBit_lt_two_pow
        (lt_of_lt_of_le hv (Nat.pow_le_pow_right (by omega) (Nat.le_add_right w i)))
    rw [hb]
    rfl
  rw [h0, Nat.xor_zero]

theorem parityW_land_xorRange (w d : Nat) (f : Nat → Nat) (n : Nat) :
    parityW w (d &&& xorRange f n)
      = xorRange (fun i => parityW w (d &&& f i)) n := by
  induction n with
  | zero =>
    rw [xorRange_zero, xorRange_zero, Nat.and_zero, parityW_zero_elem]
  | succ j ih =>
    rw [xorRange_succ, xorRange_succ, Nat.and_xor_distrib_left, parityW_xor, ih]

end DSTU

namespace DSTU

/-! ## The dual certificate for GF(2^163) -/

theorem cs163_length : cs163.length = 162 := rfl

theorem duals163_length : duals163.length = 162 := rfl

set_option maxHeartbeats 4000000 in
theorem cs163_spec : cs163 = (List.range 162).map
    (fun i => fastSquare (2 ^ F163.m) F163.red F163.m (2 ^ (i + 1)) ^^^ 2 ^ (i + 1)) := by
  decide

set_option maxHeartbeats 12000000 in
theorem cert163 : duals163.map (fun d => cs163.map (fun c => parity256 (d &&& c)))
    = (List.range 162).map (fun j => (List.range 162).map
        (fun i => if i = j then 1 else 0)) := by
  decide

theorem cert163_entry {i j : Nat} (hi : i < cs163.length)
    (hj : j < duals163.length) :
    parity256 (duals163[j] &&& cs163[i]) = if i = j then 1 else 0 := by
  have hj2 : j < (duals163.map
      (fun d => cs163.map (fun c => parity256 (d &&& c)))).length := by
    rw [List.length_map]; exact hj
  have hrow := List.getElem_of_eq cert163 hj2
  rw [List.getElem_map, List.getElem_map, List.getElem_range] at hrow
  have hi2 : i < (cs163.map
      (fun c => parity256 (duals163[j] &&& c))).length := by
    rw [List.length_map]; exact hi
  have hentry := List.getElem_of_eq hrow hi2
  rw [List.getElem_map, List.getElem_map, List.getElem_range] at hentry
  exact hentry

theorem cs163_entry {i : Nat} (hi : i < cs163.length) :
    cs163[i] = GF2mField.square F163 (2 ^ (i + 1)) ^^^ 2 ^ (i + 1) := by
  have hi' : i < 162 := by rw [cs163_length] at hi; exact hi
  have h := List.getElem_of_eq cs163_spec hi
  rw [List.getElem_map, List.getElem_range] at h
  have hia : (2:Nat) ^ (i + 1) < 2 ^ F163.m := by
    have h163 : F163.m = 163 := rfl
    rw [h163]
    exact Nat.pow_lt_pow_right (by omega) (by omega)
  rw [h, ← GF2mField.fastSquare_eq (by decide) (by decide) hia]

theorem dual163_pairing {i j : Nat} (hi1 : 1 ≤ i) (hi : i < 163)
    (hj1 : 1 ≤ j) (hj : j < 163) :
    parityW 163 (duals163.getD (j - 1) 0
        &&& (GF2mField.square F163 (2 ^ i) ^^^ 2 ^ i))
      = if i = j then 1 else 0 := by
  have hiL : i - 1 < cs163.length := by rw [cs163_length]; omega
  have hjL : j - 1 < duals163.length := by rw [duals163_length]; omega
  have hgd : duals163.getD (j - 1) 0 = duals163[j - 1] :=
    List.getD_eq_getElem duals163 0 hjL
  have hcs := cs163_entry hiL
  rw [show i - 1 + 1 = i from by omega] at hcs
  have he := cert163_entry hiL hjL
  rw [hcs, parity256_eq] at he
  have hsq : GF2mField.square F163 (2 ^ i) ^^^ 2 ^ i < 2 ^ 163 := by
    have h1 : GF2mField.square F163 (2 ^ i) < 2 ^ 163 := by
      have hcan : (2:Nat) ^ i < 2 ^ F163.m := by
        have h163 : F163.m = 163 := rfl
        rw [h163]
        exact Nat.pow_lt_pow_right (by omega) (by omega)
      have h2 : GF2mField.square F163 (2 ^ i) < 2 ^ F163.m :=
        GF2mField.square_lt (by decide) hcan
      exact h2
    exact Nat.xor_lt_two_pow h1 (Nat.pow_lt_pow_right (by omega) (by omega))
  have hlt : duals163[j - 1] &&& (GF2mField.square F163 (2 ^ i) ^^^ 2 ^ i)
      < 2 ^ 163 :=
    lt_of_le_of_lt (Nat.and_le_right) hsq
  rw [parityW_extend hlt (by omega)] at he
  rw [hgd, he]
  by_cases hij : i = j
  · rw [if_pos (show i - 1 = j - 1 by omega), if_pos hij]
  · rw [if_neg (show ¬(i - 1 = j - 1) by omega), if_neg hij]

end DSTU

namespace DSTU

open GF2mField

/-- The kernel of a mapsto a^2 + a on GF(2^163) is the prime subfield {0, 1}:
consequence of the dual certificate `cert163`. -/
theorem ker163 : ∀ y, y < 2 ^ F163.m → GF2mField.square F163 y = y →
    y = 0 ∨ y = 1 := by
  intro y hy hsq
  have hm163 : F163.m = 163 := rfl
  have hm : 0 < F163.m := by rw [hm163]; omega
  have hred : F163.red < 2 ^ F163.m := by decide
  have hy' : y < 2 ^ 163 := by rw [hm163] at hy; exact hy
  have hbits : ∀ i, i < 163 →
      (if y.testBit i then (2:Nat) ^ i else 0) < 2 ^ F163.m := by
    intro i hilt
    cases hbi : y.testBit i
    · simp only [Bool.false_eq_true, if_false]
      exact Nat.pos_pow_of_pos F163.m (by omega)
    · simp only [if_true]
      rw [hm163]
      exact Nat.pow_lt_pow_right (by omega) hilt
  have hdec : GF2mField.square F163 y ^^^ y
      = xorRange (fun i => if y.testBit i then
          GF2mField.square F163 (2 ^ i) ^^^ 2 ^ i else 0) 163 := by
    conv_lhs => rw [show y = xorRange (fun i => if y.testBit i then 2 ^ i else 0) 163
      from (bit_decomp 163 y hy').symm]
    rw [show GF2mField.square F163 (xorRange (fun i => if y.testBit i then 2 ^ i else 0) 163)
        = sqIter F163 1 (xorRange (fun i => if y.testBit i then 2 ^ i else 0) 163) from rfl]
    rw [sqIter_xorRange hm hred 1 hbits, ← xorRange_xor]
    apply xorRange_congr
    intro i hilt
    cases hbi : y.testBit i
    · simp only [hbi, Bool.false_eq_true, if_false]
      rw [show sqIter F163 1 0 = GF2mField.square F163 0 from rfl,
        GF2mField.square_zero]
      rfl
    · simp only [hbi, if_true]
      rfl
  have hbit : ∀ j, 1 ≤ j → j < 163 → y.testBit j = false := by
    intro j hj1 hj
    cases hbj : y.testBit j
    · rfl
    · exfalso
      have hphi : GF2mField.square F163 y ^^^ y = 0 := by
        rw [hsq, Nat.xor_self]
      have h0 : parityW 163 (duals163.getD (j - 1) 0
          &&& (GF2mField.square F163 y ^^^ y)) = 0 := by
        rw [hphi, Nat.and_zero, parityW_zero_elem]
      rw [hdec, parityW_land_xorRange] at h0
      have hothers : ∀ i, i < 163 → i ≠ j →
          parityW 163 (duals163.getD (j - 1) 0 &&&
            (if y.testBit i then GF2mField.square F163 (2 ^ i) ^^^ 2 ^ i else 0)) = 0 := by
        intro i hilt hij
        cases hbi : y.testBit i
        · simp only [hbi, Bool.false_eq_true, if_false]
          rw [Nat.and_zero, parityW_zero_elem]
        · simp only [hbi, if_true]
          by_cases hi0 : i = 0
          · subst hi0
            have hsq1 : GF2mField.square F163 (2 ^ 0) ^^^ 2 ^ 0 = 0 := by
              rw [show (2:Nat) ^ 0 = 1 from rfl, GF2mField.square_one hm,
                Nat.xor_self]
            rw [hsq1, Nat.and_zero, parityW_zero_elem]
          · rw [dual163_pairing (by omega) hilt hj1 hj, if_neg hij]
      have hone : xorRange (fun i => parityW 163 (duals163.getD (j - 1) 0 &&&
          (if y.testBit i then GF2mField.square F163 (2 ^ i) ^^^ 2 ^ i else 0))) 163
          = 1 := by
        rw [xorRange_single hj hothers, hbj]
        simp only [if_true]
        rw [dual163_pairing hj1 hj hj1 hj, if_pos rfl]
      rw [h0] at hone
      exact absurd hone (by omega)
  have hfin : y = (if y.testBit 0 then (2:Nat) ^ 0 else 0) := by
    conv_lhs => rw [← bit_decomp 163 y hy']
    rw [xorRange_single (show 0 < 163 by omega)
      (fun i hilt hne => by rw [hbit i (by omega) hilt]; rfl)]
  cases hb0 : y.testBit 0
  · left
    rw [hfin, hb0]
    rfl
  · right
    rw [hfin, hb0]
    rfl

end DSTU

namespace DSTU

namespace GF2mField

variable {F : GF2mField}

theorem one_eq (hm : 0 < F.m) : one F = 1 := by
  unfold one element_from_int
  exact Nat.mod_eq_of_lt (Nat.one_lt_two_pow_iff.mpr (by omega))

theorem trace_lt_two (a : Nat) : trace F a < 2 :=
  Nat.mod_lt _ (by omega)

theorem powAux_lt (hred : F.red < 2 ^ F.m) :
    ∀ fuel e {r b : Nat}, r < 2 ^ F.m → b < 2 ^ F.m →
      powAux F fuel e r b < 2 ^ F.m := by
  intro fuel
  induction fuel with
  | zero => intro e r b hr _; exact hr
  | succ n ih =>
    intro e r b hr hb
    show (if e = 0 then r else powAux F n (e / 2)
      (if e % 2 = 1 then multiply F r b else r) (square F b)) < 2 ^ F.m
    by_cases he : e = 0
    · rw [if_pos he]; exact hr
    · rw [if_neg he]
      apply ih
      · by_cases hp : e % 2 = 1
        · rw [if_pos hp]; exact multiply_lt hred r hb
        · rw [if_neg hp]; exact hr
      · exact square_lt hred hb

theorem power_lt (hm : 0 < F.m) (hred : F.red < 2 ^ F.m) {a : Nat}
    (ha : a < 2 ^ F.m) (n : Nat) : power F a n < 2 ^ F.m := by
  unfold power
  by_cases h0 : n = 0
  · rw [if_pos h0]
    unfold element_from_int
    exact Nat.mod_lt _ (Nat.pos_pow_of_pos F.m (by omega))
  · rw [if_neg h0]
    by_cases h1 : n = 1
    · rw [if_pos h1]; exact ha
    · rw [if_neg h1]
      apply powAux_lt hred
      · unfold element_from_int
        exact Nat.mod_lt _ (Nat.pos_pow_of_pos F.m (by omega))
      · exact ha

theorem powAux_one (hm : 0 < F.m) : ∀ fuel e, powAux F fuel e 1 1 = 1 := by
  intro fuel
  induction fuel with
  | zero => intro e; rfl
  | succ n ih =>
    intro e
    show (if e = 0 then 1 else powAux F n (e / 2)
      (if e % 2 = 1 then multiply F 1 1 else 1) (square F 1)) = 1
    by_cases he : e = 0
    · rw [if_pos he]
    · rw [if_neg he, multiply_one_left hm 1, square_one hm, ite_self]
      exact ih (e / 2)

theorem power_one_elem (hm : 0 < F.m) (n : Nat) : power F 1 n = 1 := by
  unfold power
  have h1 : element_from_int F 1 = 1 := one_eq hm
  by_cases h0 : n = 0
  · rw [if_pos h0]; exact h1
  · rw [if_neg h0]
    by_cases hn1 : n = 1
    · rw [if_pos hn1]
    · rw [if_neg hn1, h1]
      exact powAux_one hm n n

theorem htrAux_lt (hred : F.red < 2 ^ F.m) :
    ∀ k {r t : Nat}, r < 2 ^ F.m → t < 2 ^ F.m →
      htrAux F k r t < 2 ^ F.m := by
  intro k
  induction k with
  | zero => intro r t hr _; exact hr
  | succ n ih =>
    intro r t hr ht
    show htrAux F n (r ^^^ square F (square F t)) (square F (square F t)) < 2 ^ F.m
    exact ih (Nat.xor_lt_two_pow hr (square_lt hred (square_lt hred ht)))
      (square_lt hred (square_lt hred ht))

theorem square_multiply (hm : 0 < F.m) (hred : F.red < 2 ^ F.m) {a b : Nat}
    (ha : a < 2 ^ F.m) (hb : b < 2 ^ F.m) :
    square F (multiply F a b) = multiply F (square F a) (square F b) := by
  unfold square
  rw [multiply_assoc hm hred ha hb (multiply_lt hred a hb),
    multiply_comm hm hb (multiply_lt hred a hb),
    multiply_assoc hm hred ha hb hb,
    ← multiply_assoc hm hred ha ha (multiply_lt hred b hb)]

theorem square_eq_zero (hm2 : 2 ≤ F.m) (hred : F.red < 2 ^ F.m)
    (ht : sqIter F F.m 2 = 2) {a : Nat} (ha : a < 2 ^ F.m)
    (h : square F a = 0) : a = 0 := by
  have h1 : a = sqIter F F.m a := (frobenius_all hm2 hred ht ha).symm
  have hm : F.m = (F.m - 1) + 1 := by omega
  rw [h1, hm]
  show sqIter F (F.m - 1) (square F a) = 0
  rw [h]
  exact sqIter_zero_elem (F.m - 1)

theorem trSum_eq_zero (hm2 : 2 ≤ F.m) (hred : F.red < 2 ^ F.m)
    (ht : sqIter F F.m 2 = 2)
    (hker : ∀ a, a < 2 ^ F.m → square F a = a → a = 0 ∨ a = 1)
    {v : Nat} (hv : v < 2 ^ F.m) (htr : trace F v = 0) : trSum F v = 0 := by
  have hfix : square F (trSum F v) = trSum F v := square_trSum hm2 hred ht hv
  have hlt : trSum F v < 2 ^ F.m := trSum_lt (by omega) hred hv
  rcases hker _ hlt hfix with h | h
  · exact h
  · exfalso
    rw [show trace F v = trSum F v % 2 from rfl, h] at htr
    omega

theorem xor_div_two (a b : Nat) : (a ^^^ b) / 2 = a / 2 ^^^ b / 2 := by
  apply Nat.eq_of_testBit_eq
  intro i
  rw [← Nat.testBit_add_one, Nat.testBit_xor, Nat.testBit_xor,
    Nat.testBit_add_one, Nat.testBit_add_one]

theorem xor_one_of_even {x : Nat} (hx : x % 2 = 0) : x ^^^ 1 = x + 1 := by
  have h1 : (x ^^^ 1) % 2 = x % 2 ^^^ 1 % 2 := mod_two_pow_xor x 1 1
  have h2 : (x ^^^ 1) / 2 = x / 2 := by
    rw [xor_div_two, show (1:Nat) / 2 = 0 from rfl, Nat.xor_zero]
  have h3 := Nat.div_add_mod (x ^^^ 1) 2
  have h4 := Nat.div_add_mod x 2
  rw [hx] at h1
  have h5 : (0:Nat) ^^^ 1 % 2 = 1 := rfl
  rw [h5] at h1
  omega

theorem xor_one_ne (x : Nat) : x ^^^ 1 ≠ x := by
  intro h
  have h1 : (x ^^^ 1) % 2 = x % 2 ^^^ 1 % 2 := mod_two_pow_xor x 1 1
  rw [h] at h1
  rcases Nat.mod_two_eq_zero_or_one x with hx | hx <;> rw [hx] at h1 <;>
    simp at h1

theorem solve_quadratic_w0 (u : Nat) :
    solve_quadratic F u 0 = .ok (2, some 0) := by
  unfold solve_quadratic
  by_cases hu : u = 0
  · rw [if_pos hu, if_pos rfl]
  · rw [if_neg hu, if_pos rfl]

theorem solve_quadratic_neg {u w : Nat} (hu0 : u ≠ 0) (hw0 : w ≠ 0)
    (hsqu : square F u ≠ 0)
    (htr : trace F (multiply F w (power F (square F u) (2 ^ F.m - 2))) ≠ 0) :
    solve_quadratic F u w = .ok (0, none) := by
  unfold solve_quadratic
  rw [if_neg hu0, if_neg hw0]
  have hinv : inverse F (square F u)
      = some (power F (square F u) (2 ^ F.m - 2)) := by
    unfold inverse
    rw [if_neg hsqu]
  simp only [hinv]
  rw [if_pos htr]

theorem solve_quadratic_pos (hodd : F.m % 2 = 1) {u w : Nat} (hu0 : u ≠ 0) (hw0 : w ≠ 0)
    (hsqu : square F u ≠ 0)
    (htr : trace F (multiply F w (power F (square F u) (2 ^ F.m - 2))) = 0) :
    solve_quadratic F u w = .ok (2, some (multiply F
      (htrAux F ((F.m - 1) / 2)
        (multiply F w (power F (square F u) (2 ^ F.m - 2)))
        (multiply F w (power F (square F u) (2 ^ F.m - 2)))) u)) := by
  unfold solve_quadratic
  rw [if_neg hu0, if_neg hw0]
  have hinv : inverse F (square F u)
      = some (power F (square F u) (2 ^ F.m - 2)) := by
    unfold inverse
    rw [if_neg hsqu]
  simp only [hinv]
  rw [if_neg (by rw [htr]; omega)]
  have hht : half_trace F (multiply F w (power F (square F u) (2 ^ F.m - 2)))
      = .ok (htrAux F ((F.m - 1) / 2)
          (multiply F w (power F (square F u) (2 ^ F.m - 2)))
          (multiply F w (power F (square F u) (2 ^ F.m - 2)))) := by
    unfold half_trace
    rw [if_neg (by omega)]
  rw [hht]
  rfl

end GF2mField

end DSTU

namespace DSTU

namespace EllipticCurve

open GF2mField

theorem decompress_point_eq (C : EllipticCurve) (c : Nat) :
    decompress_point C c
      = if c = 0 then
          .ok (.affine (zero C.F) (power C.F C.B (1 <<< (C.F.m - 1))))
        else decompressTail C (c % 2) (decompressCandidate C c) := by
  by_cases hc : c = 0
  · rw [if_pos hc]
    unfold decompress_point
    rw [if_pos hc]
  · rw [if_neg hc]
    unfold decompress_point
    rw [if_neg hc]
    rfl

theorem solve_one_cases (C : EllipticCurve) (hm : 0 < C.F.m)
    (hodd : C.F.m % 2 = 1) (v : Nat) :
    solve_quadratic C.F (one C.F) v = .ok (0, none) ∨
    ∃ z, solve_quadratic C.F (one C.F) v = .ok (2, some z) := by
  rw [one_eq hm]
  by_cases hv0 : v = 0
  · right
    exact ⟨0, by rw [hv0]; exact solve_quadratic_w0 1⟩
  · have hsqu : square C.F 1 ≠ 0 := by rw [square_one hm]; omega
    by_cases htr : trace C.F (multiply C.F v
        (power C.F (square C.F 1) (2 ^ C.F.m - 2))) = 0
    · right
      exact ⟨_, solve_quadratic_pos hodd (by omega) hv0 hsqu htr⟩
    · left
      exact solve_quadratic_neg (by omega) hv0 hsqu htr

theorem decompressTail_shape (C : EllipticCurve) (hm : 0 < C.F.m)
    (hodd : C.F.m % 2 = 1) (k xP : Nat) :
    (decompressTail C k xP = .error .typeError ∧ square C.F xP = 0) ∨
    decompressTail C k xP = .error (.valueError "Не вдалося відновити точку") ∨
    ∃ y2, decompressTail C k xP = .ok (.affine xP y2) := by
  unfold decompressTail
  cases hinv : inverse C.F (square C.F xP) with
  | none =>
    left
    constructor
    · simp only [hinv]
    · unfold inverse at hinv
      by_cases hsq : square C.F xP = 0
      · exact hsq
      · rw [if_neg hsq] at hinv
        cases hinv
  | some u =>
    rcases solve_one_cases C hm hodd (multiply C.F
        (add C.F (if C.A = 1 then
            add C.F (multiply C.F xP (square C.F xP)) (square C.F xP)
          else multiply C.F xP (square C.F xP)) C.B) u) with hs | ⟨z, hs⟩
    · right; left
      simp only [hinv, hs]
      rfl
    · right; right
      exact ⟨_, by simp only [hinv, hs]; rfl⟩

theorem decompressCandidate_spec (C : EllipticCurve) (hm : 0 < C.F.m)
    (hodd : C.F.m % 2 = 1) (hred : C.F.red < 2 ^ C.F.m) (hA : C.A ≤ 1)
    {x : Nat} (hx : x < 2 ^ C.F.m) (hx2 : 2 ≤ x) {b : Nat} (hb : b < 2) :
    setLowBit x b ≠ 0 ∧
    decompressCandidate C (setLowBit x b)
      = (if trace C.F x = C.A then x else x ^^^ 1) := by
  have hc0 : setLowBit x b ≠ 0 := by unfold setLowBit; omega
  refine ⟨hc0, ?_⟩
  have hx0 : setLowBit (setLowBit x b) 0 = x - x % 2 := by
    unfold setLowBit
    omega
  unfold decompressCandidate
  rw [hx0]
  have h1lt : (1:Nat) < 2 ^ C.F.m := Nat.one_lt_two_pow_iff.mpr (by omega)
  have hx0lt : x - x % 2 < 2 ^ C.F.m := by omega
  rcases Nat.mod_two_eq_zero_or_one x with hpar | hpar
  · have hxx : x - x % 2 = x := by omega
    rw [hxx]
    by_cases htA : trace C.F x = C.A
    · rw [if_neg (show ¬(trace C.F x ≠ C.A) by omega), if_pos htA]
    · rw [if_pos htA, if_neg htA]
      unfold setLowBit
      rw [xor_one_of_even hpar]
      omega
  · have hx0e : (x - x % 2) % 2 = 0 := by omega
    have hxeq : x = (x - x % 2) ^^^ 1 := by
      rw [xor_one_of_even hx0e]
      omega
    have htr0 : trace C.F (x - x % 2) = trace C.F x ^^^ 1 := by
      have h2 := trace_additive hm hred hx0lt h1lt
      rw [← hxeq, trace_one hodd] at h2
      rw [h2, Nat.xor_assoc]
      simp
    have hfix : x ^^^ 1 = x - x % 2 := by
      conv_lhs => rw [hxeq]
      rw [Nat.xor_assoc]
      simp
    by_cases htA : trace C.F x = C.A
    · have hcond : trace C.F (x - x % 2) ≠ C.A := by
        rw [htr0, htA]
        exact xor_one_ne C.A
      rw [if_pos hcond, if_pos htA]
      unfold setLowBit
      omega
    · have htxlt : trace C.F x < 2 := trace_lt_two x
      have hcond : trace C.F (x - x % 2) = C.A := by
        rw [htr0]
        have h4 : trace C.F x = 0 ∨ trace C.F x = 1 := by omega
        have h5 : C.A = 0 ∨ C.A = 1 := by omega
        rcases h4 with h4 | h4 <;> rcases h5 with h5 | h5 <;> rw [h4, h5] <;>
          first
          | rfl
          | (exfalso; omega)
      rw [if_neg (show ¬(trace C.F (x - x % 2) ≠ C.A) by omega), if_neg htA]
      rw [hfix]

theorem decompressCandidate_pos (C : EllipticCurve) (hm : 0 < C.F.m)
    (hA : C.A = 1) {c : Nat} (hc : c ≠ 0) (hcm : c < 2 ^ C.F.m) :
    decompressCandidate C c ≠ 0 ∧ decompressCandidate C c < 2 ^ C.F.m := by
  unfold decompressCandidate
  have hx0 : setLowBit c 0 = c - c % 2 := by unfold setLowBit; omega
  rw [hx0]
  show (if GF2mField.trace C.F (c - c % 2) ≠ C.A then setLowBit (c - c % 2) 1
      else (c - c % 2)) ≠ 0 ∧
    (if GF2mField.trace C.F (c - c % 2) ≠ C.A then setLowBit (c - c % 2) 1
      else (c - c % 2)) < 2 ^ C.F.m
  have h2m : 2 ^ C.F.m = 2 * 2 ^ (C.F.m - 1) := by
    rw [← pow_succ']
    congr 1
    omega
  by_cases hc1 : c = 1
  · subst hc1
    rw [show (1:Nat) - 1 % 2 = 0 from rfl, trace_zero_elem, hA]
    rw [if_pos (by omega)]
    unfold setLowBit
    omega
  · by_cases htc : trace C.F (c - c % 2) ≠ C.A
    · rw [if_pos htc]
      unfold setLowBit
      omega
    · rw [if_neg htc]
      omega

theorem compress_point_eq (C : EllipticCurve) {x : Nat} (hx0 : x ≠ 0)
    (y : Nat) :
    compress_point C (.affine x y)
      = .ok (setLowBit x
          (trace C.F (multiply C.F y (power C.F x (2 ^ C.F.m - 2))))) := by
  unfold compress_point
  show (if x = 0 then (.ok (zero C.F) : Except PyError Nat)
      else match inverse C.F x with
        | none => .error .typeError
        | some x_inv => .ok (setLowBit x (trace C.F (multiply C.F y x_inv)))) = _
  rw [if_neg hx0]
  have hinv : inverse C.F x = some (power C.F x (2 ^ C.F.m - 2)) := by
    unfold inverse
    rw [if_neg hx0]
  simp only [hinv]

end EllipticCurve

/-- Frobenius period fact for GF(2^163): squaring 163 times fixes the
generator t, verified through the fast evaluation forms. -/
theorem frob163_fact : GF2mField.sqIter F163 F163.m 2 = 2 := by
  rw [GF2mField.fastSqIter_eq (by decide) (by decide) F163.m (by decide)]
  decide

end DSTU

namespace DSTU

namespace EllipticCurve

open GF2mField

/-- What compression followed by decompression really does to the
x-coordinate of an affine input (x, y) with 2 ≤ x (any y): compression
always succeeds with a nonzero encoding; the candidate x-coordinate that
decompression reconstructs is x itself when trace(x) = A, and x with its
low bit flipped — a different element — when trace(x) ≠ A, so in the
latter case the round trip can never return the original point. -/
theorem compress_decompress_trace_class (C : EllipticCurve) (hm : 0 < C.F.m)
    (hodd : C.F.m % 2 = 1) (hred : C.F.red < 2 ^ C.F.m) (hA : C.A ≤ 1)
    (x y : Nat) (hx : x < 2 ^ C.F.m) (hx2 : 2 ≤ x) :
    ∃ c, compress_point C (.affine x y) = .ok c ∧ c ≠ 0 ∧
      (trace C.F x = C.A → decompressCandidate C c = x) ∧
      (trace C.F x ≠ C.A → decompressCandidate C c = x ^^^ 1 ∧
        decompress_point C c ≠ .ok (.affine x y)) ∧
      (∀ Q, decompress_point C c = .ok Q →
        ∃ y2, Q = .affine (decompressCandidate C c) y2) := by
  have hblt : trace C.F (multiply C.F y (power C.F x (2 ^ C.F.m - 2))) < 2 :=
    trace_lt_two _
  obtain ⟨hne, hcand⟩ := decompressCandidate_spec C hm hodd hred hA hx hx2 hblt
  refine ⟨setLowBit x (trace C.F (multiply C.F y (power C.F x (2 ^ C.F.m - 2)))),
    compress_point_eq C (by omega) y, hne, ?_, ?_, ?_⟩
  · intro ht
    rw [hcand, if_pos ht]
  · intro ht
    refine ⟨by rw [hcand, if_neg ht], ?_⟩
    intro hcontra
    rw [decompress_point_eq, if_neg hne] at hcontra
    rcases decompressTail_shape C hm hodd
        (setLowBit x (trace C.F (multiply C.F y (power C.F x (2 ^ C.F.m - 2)))) % 2)
        (decompressCandidate C (setLowBit x
          (trace C.F (multiply C.F y (power C.F x (2 ^ C.F.m - 2))))))
      with ⟨he, _⟩ | he | ⟨y2, he⟩
    · exact absurd (he.symm.trans hcontra) (by simp)
    · exact absurd (he.symm.trans hcontra) (by simp)
    · have h2 := he.symm.trans hcontra
      rw [hcand, if_neg ht] at h2
      simp only [Except.ok.injEq, Point.affine.injEq] at h2
      exact absurd h2.1 (xor_one_ne x)
  · intro Q hQ
    rw [decompress_point_eq, if_neg hne] at hQ
    rcases decompressTail_shape C hm hodd
        (setLowBit x (trace C.F (multiply C.F y (power C.F x (2 ^ C.F.m - 2)))) % 2)
        (decompressCandidate C (setLowBit x
          (trace C.F (multiply C.F y (power C.F x (2 ^ C.F.m - 2))))))
      with ⟨he, _⟩ | he | ⟨y2, he⟩
    · exact absurd (he.symm.trans hQ) (by simp)
    · exact absurd (he.symm.trans hQ) (by simp)
    · have h2 := he.symm.trans hQ
      simp only [Except.ok.injEq] at h2
      exact ⟨y2, h2.symm⟩

end EllipticCurve

/-- C5: the spec says point decompression inverts point compression on every
non-infinity curve point.  It does not: for the M-163 curve point P below
(on the curve, verified here), trace(x) = 0 differs from A = 1, compression
encodes P as c = 0x...98A6, and decompression of c can only yield a point
with x-coordinate x XOR 1 ≠ x, so the round trip never returns P. -/
theorem decompress_compress_roundtrip_fails :
    EllipticCurve.is_on_curve curve163
      (.affine 0xBC8DE947E26CCB7AD271F166F8A8AF5FAF4998A7
               0x1C8E9C3E0A57082023029321121A4114D8A180C30) = true ∧
    Point.affine 0xBC8DE947E26CCB7AD271F166F8A8AF5FAF4998A7
        0x1C8E9C3E0A57082023029321121A4114D8A180C30 ≠ Point.infinity ∧
    EllipticCurve.compress_point curve163
      (.affine 0xBC8DE947E26CCB7AD271F166F8A8AF5FAF4998A7
               0x1C8E9C3E0A57082023029321121A4114D8A180C30)
      = .ok 0xBC8DE947E26CCB7AD271F166F8A8AF5FAF4998A6 ∧
    EllipticCurve.decompress_point curve163
        0xBC8DE947E26CCB7AD271F166F8A8AF5FAF4998A6
      ≠ .ok (.affine 0xBC8DE947E26CCB7AD271F166F8A8AF5FAF4998A7
               0x1C8E9C3E0A57082023029321121A4114D8A180C30) := by
  have hplt : GF2mField.power curve163.F 0xBC8DE947E26CCB7AD271F166F8A8AF5FAF4998A7
      (2 ^ curve163.F.m - 2) < 2 ^ curve163.F.m :=
    GF2mField.power_lt (by decide) (by decide) (by decide) _
  refine ⟨?_, by simp, ?_, ?_⟩
  · decide
  · rw [EllipticCurve.compress_point_eq curve163 (by decide)
      0x1C8E9C3E0A57082023029321121A4114D8A180C30]
    rw [GF2mField.fastTrace_eq (by decide) (by decide)
      (GF2mField.multiply_lt (by decide) 0x1C8E9C3E0A57082023029321121A4114D8A180C30 hplt)]
    rw [GF2mField.fastMul_eq (by decide) (by decide)
      0x1C8E9C3E0A57082023029321121A4114D8A180C30 hplt]
    rw [GF2mField.fastPow_eq (by decide) (by decide)
      (show (0xBC8DE947E26CCB7AD271F166F8A8AF5FAF4998A7 : Nat) < 2 ^ curve163.F.m
        by decide)]
    simp only [Except.ok.injEq]
    decide
  · intro hcontra
    have hc0 : (0xBC8DE947E26CCB7AD271F166F8A8AF5FAF4998A6 : Nat) ≠ 0 := by decide
    rw [EllipticCurve.decompress_point_eq, if_neg hc0] at hcontra
    have htrxb : GF2mField.trace curve163.F
        0xBC8DE947E26CCB7AD271F166F8A8AF5FAF4998A7 = 0 := by
      rw [GF2mField.fastTrace_eq (by decide) (by decide) (by decide)]
      decide
    obtain ⟨hne0, hcand⟩ := EllipticCurve.decompressCandidate_spec curve163
      (by decide) (by decide) (by decide) (by decide)
      (show (0xBC8DE947E26CCB7AD271F166F8A8AF5FAF4998A7 : Nat) < 2 ^ curve163.F.m
        by decide)
      (by decide) (show (0:Nat) < 2 by decide)
    rw [htrxb, if_neg (by decide)] at hcand
    rw [show EllipticCurve.setLowBit 0xBC8DE947E26CCB7AD271F166F8A8AF5FAF4998A7 0
        = 0xBC8DE947E26CCB7AD271F166F8A8AF5FAF4998A6 from by decide] at hcand
    rcases EllipticCurve.decompressTail_shape curve163 (by decide) (by decide)
        (0xBC8DE947E26CCB7AD271F166F8A8AF5FAF4998A6 % 2)
        (EllipticCurve.decompressCandidate curve163
          0xBC8DE947E26CCB7AD271F166F8A8AF5FAF4998A6)
      with ⟨he, _⟩ | he | ⟨y2, he⟩
    · exact absurd (he.symm.trans hcontra) (by simp)
    · exact absurd (he.symm.trans hcontra) (by simp)
    · have h2 := he.symm.trans hcontra
      rw [hcand] at h2
      simp only [Except.ok.injEq, Point.affine.injEq] at h2
      exact absurd h2.1 (by decide)

end DSTU

namespace DSTU

/-- C10 counterexample: on the M-257 curve (A = 0) the nonzero compressed
encoding c = 1 yields candidate x = 0 (clearing the low bit gives 0, whose
trace 0 equals A, so the bit is not re-set), and decompression then feeds
the zero element into the inversion and dies with the `TypeError` of
multiplying by None — neither a point nor the decode `ValueError`. -/
theorem decompress_typeError_at_one :
    EllipticCurve.decompressCandidate curve257 1 = 0 ∧
    EllipticCurve.decompress_point curve257 1 = .error .typeError := by
  have hcand : EllipticCurve.decompressCandidate curve257 1 = 0 := by
    unfold EllipticCurve.decompressCandidate
    show (if GF2mField.trace curve257.F (EllipticCurve.setLowBit 1 0) ≠ curve257.A
        then EllipticCurve.setLowBit (EllipticCurve.setLowBit 1 0) 1
        else EllipticCurve.setLowBit 1 0) = 0
    rw [show EllipticCurve.setLowBit 1 0 = 0 from rfl, GF2mField.trace_zero_elem]
    rw [if_neg (by decide)]
  refine ⟨hcand, ?_⟩
  rw [EllipticCurve.decompress_point_eq, if_neg (by decide), hcand]
  unfold EllipticCurve.decompressTail
  rw [GF2mField.square_zero]
  rfl

/-- C10 (amended to curves with A = 1, as both deployed DSTU curves with
A = 1 would be; the M-163 instance satisfies every hypothesis): for every
nonzero encoding c the candidate x-coordinate is nonzero, and decompression
returns a point or fails with the decode `ValueError` — never the
`TypeError` of a failed inversion.  The Frobenius hypothesis `ht` makes
squaring injective, so the inverted square cannot be the zero element. -/
theorem decompress_no_typeError (C : EllipticCurve) (hm2 : 2 ≤ C.F.m)
    (hodd : C.F.m % 2 = 1) (hred : C.F.red < 2 ^ C.F.m) (hA : C.A = 1)
    (ht : GF2mField.sqIter C.F C.F.m 2 = 2)
    (c : Nat) (hc : c ≠ 0) (hcm : c < 2 ^ C.F.m) :
    EllipticCurve.decompressCandidate C c ≠ 0 ∧
    ((∃ P, EllipticCurve.decompress_point C c = .ok P) ∨
      EllipticCurve.decompress_point C c
        = .error (.valueError "Не вдалося відновити точку")) := by
  obtain ⟨hne, hlt⟩ := EllipticCurve.decompressCandidate_pos C (by omega) hA hc hcm
  refine ⟨hne, ?_⟩
  rw [EllipticCurve.decompress_point_eq, if_neg hc]
  rcases EllipticCurve.decompressTail_shape C (by omega) hodd (c % 2)
      (EllipticCurve.decompressCandidate C c) with ⟨he, hsq⟩ | he | ⟨y2, he⟩
  · exact absurd (GF2mField.square_eq_zero hm2 hred ht hlt hsq) hne
  · right
    exact he
  · left
    exact ⟨_, he⟩

/-- Witness for the amended C10 theorem at the M-163 curve and the
encoding c = 5. -/
theorem decompress_no_typeError_witness :
    (5:Nat) ≠ 0 ∧
    (EllipticCurve.decompressCandidate curve163 5 ≠ 0 ∧
      ((∃ P, EllipticCurve.decompress_point curve163 5 = .ok P) ∨
        EllipticCurve.decompress_point curve163 5
          = .error (.valueError "Не вдалося відновити точку"))) :=
  ⟨by decide, decompress_no_typeError curve163 (by decide) (by decide) (by decide)
    rfl frob163_fact 5 (by decide) (by decide)⟩

end DSTU

namespace DSTU

open GF2mField

/-- C6: behaviour of `solve_quadratic` on z^2 + uz + w = 0, for any binary
field satisfying the (verified for GF(2^163)) hypotheses: odd extension
degree, canonical reduction value, Frobenius period m, and the kernel of
a mapsto a^2 + a being {0, 1}.  (i) For u = 1 the solver returns count = 2
exactly when trace(w) = 0; (ii) for u = 1 any returned solution z satisfies
z^2 + z + w = 0; for u ≠ 0 and w ≠ 0, with v = w · (u^2)^(2^m - 2) the
field expression the code inverts by, (iii) trace(v) ≠ 0 yields (0, none),
and (iv) trace(v) = 0 yields count 2 with the solution u·HalfTrace(v),
which solves z^2 + uz + w = 0, as does the second root z + u ≠ z. -/
theorem solve_quadratic_contract (F : GF2mField) (hm2 : 2 ≤ F.m)
    (hodd : F.m % 2 = 1) (hred : F.red < 2 ^ F.m)
    (ht : sqIter F F.m 2 = 2)
    (hker : ∀ a, a < 2 ^ F.m → square F a = a → a = 0 ∨ a = 1)
    (w : Nat) (hw : w < 2 ^ F.m) (u : Nat) (hu : u < 2 ^ F.m) (hu0 : u ≠ 0)
    (v : Nat)
    (hv : v = multiply F w (power F (square F u) (2 ^ F.m - 2)))
    (huinv : multiply F (square F u)
      (power F (square F u) (2 ^ F.m - 2)) = 1) :
    (∀ count z?, solve_quadratic F 1 w = .ok (count, z?) →
      (count = 2 ↔ trace F w = 0)) ∧
    (∀ count z, solve_quadratic F 1 w = .ok (count, some z) →
      square F z ^^^ z ^^^ w = 0) ∧
    (w ≠ 0 → trace F v ≠ 0 → solve_quadratic F u w = .ok (0, none)) ∧
    (w ≠ 0 → trace F v = 0 →
      ∃ z, solve_quadratic F u w = .ok (2, some z) ∧
        z = multiply F u (htrAux F ((F.m - 1) / 2) v v) ∧
        square F z ^^^ multiply F u z ^^^ w = 0 ∧
        square F (z ^^^ u) ^^^ multiply F u (z ^^^ u) ^^^ w = 0 ∧
        z ^^^ u ≠ z) := by
  have hm : 0 < F.m := by omega
  have hplt : power F (square F 1) (2 ^ F.m - 2) < 2 ^ F.m :=
    power_lt hm hred (square_lt hred (Nat.one_lt_two_pow_iff.mpr (by omega))) _
  have hsq1 : square F 1 ≠ 0 := by
    rw [square_one hm]
    omega
  have hz1 : power F (square F 1) (2 ^ F.m - 2) = 1 := by
    rw [square_one hm, power_one_elem hm]
  refine ⟨?_, ?_, ?_, ?_⟩
  · intro count z? h
    by_cases hw0 : w = 0
    · subst hw0
      rw [solve_quadratic_w0] at h
      simp only [Except.ok.injEq, Prod.mk.injEq] at h
      constructor
      · intro _
        exact trace_zero_elem
      · intro _
        omega
    · have hmw : multiply F w (power F (square F 1) (2 ^ F.m - 2)) = w := by
        rw [hz1, multiply_one_right hm hw]
      by_cases htw : trace F w = 0
      · have hpos := solve_quadratic_pos hodd (show (1:Nat) ≠ 0 by omega) hw0 hsq1
          (show trace F (multiply F w (power F (square F 1) (2 ^ F.m - 2))) = 0
            by rw [hmw]; exact htw)
        rw [hmw] at hpos
        rw [hpos] at h
        simp only [Except.ok.injEq, Prod.mk.injEq] at h
        exact ⟨fun _ => htw, fun _ => h.1.symm⟩
      · have hneg := solve_quadratic_neg (show (1:Nat) ≠ 0 by omega) hw0 hsq1
          (show trace F (multiply F w (power F (square F 1) (2 ^ F.m - 2))) ≠ 0
            by rw [hmw]; exact htw)
        rw [hneg] at h
        simp only [Except.ok.injEq, Prod.mk.injEq] at h
        constructor
        · intro hc
          exfalso
          omega
        · intro htr0
          exact absurd htr0 htw
  · intro count z h
    by_cases hw0 : w = 0
    · subst hw0
      rw [solve_quadratic_w0] at h
      simp only [Except.ok.injEq, Prod.mk.injEq, Option.some.injEq] at h
      rw [← h.2, square_zero]
      rfl
    · have hmw : multiply F w (power F (square F 1) (2 ^ F.m - 2)) = w := by
        rw [hz1, multiply_one_right hm hw]
      by_cases htw : trace F w = 0
      · have hpos := solve_quadratic_pos hodd (show (1:Nat) ≠ 0 by omega) hw0 hsq1
          (show trace F (multiply F w (power F (square F 1) (2 ^ F.m - 2))) = 0
            by rw [hmw]; exact htw)
        rw [hmw] at hpos
        rw [hpos] at h
        simp only [Except.ok.injEq, Prod.mk.injEq, Option.some.injEq] at h
        have hXz := h.2
        rw [multiply_one_right hm (htrAux_lt hred ((F.m - 1) / 2) hw hw)] at hXz
        rw [← hXz]
        rw [htr_equation hm2 hodd hred ht hw]
        exact trSum_eq_zero hm2 hred ht hker hw htw
      · have hneg := solve_quadratic_neg (show (1:Nat) ≠ 0 by omega) hw0 hsq1
          (show trace F (multiply F w (power F (square F 1) (2 ^ F.m - 2))) ≠ 0
            by rw [hmw]; exact htw)
        rw [hneg] at h
        simp at h
  · intro hw0 htv
    have hsqu : square F u ≠ 0 := fun h0 =>
      hu0 (square_eq_zero hm2 hred ht hu h0)
    exact solve_quadratic_neg hu0 hw0 hsqu (by rw [← hv]; exact htv)
  · intro hw0 htv
    have hsqu : square F u ≠ 0 := fun h0 =>
      hu0 (square_eq_zero hm2 hred ht hu h0)
    have hplt2 : power F (square F u) (2 ^ F.m - 2) < 2 ^ F.m :=
      power_lt hm hred (square_lt hred hu) _
    have hvlt : v < 2 ^ F.m := by
      rw [hv]
      exact multiply_lt hred w hplt2
    have hpos := solve_quadratic_pos hodd hu0 hw0 hsqu
      (show trace F (multiply F w (power F (square F u) (2 ^ F.m - 2))) = 0
        by rw [← hv]; exact htv)
    rw [← hv] at hpos
    have hhlt : htrAux F ((F.m - 1) / 2) v v < 2 ^ F.m :=
      htrAux_lt hred ((F.m - 1) / 2) hvlt hvlt
    have hcomm : multiply F (htrAux F ((F.m - 1) / 2) v v) u
        = multiply F u (htrAux F ((F.m - 1) / 2) v v) :=
      multiply_comm hm hhlt hu
    have hzlt : multiply F (htrAux F ((F.m - 1) / 2) v v) u < 2 ^ F.m :=
      multiply_lt hred _ hu
    have hsol : square F (multiply F (htrAux F ((F.m - 1) / 2) v v) u)
        ^^^ multiply F u (multiply F (htrAux F ((F.m - 1) / 2) v v) u)
        ^^^ w = 0 := by
      have hs1 : square F (multiply F (htrAux F ((F.m - 1) / 2) v v) u)
          = multiply F (square F (htrAux F ((F.m - 1) / 2) v v)) (square F u) :=
        square_multiply hm hred hhlt hu
      have hs2 : multiply F u (multiply F (htrAux F ((F.m - 1) / 2) v v) u)
          = multiply F (square F u) (htrAux F ((F.m - 1) / 2) v v) := by
        rw [hcomm, ← multiply_assoc hm hred hu hu hhlt]
        rfl
      rw [hs1, hs2,
        multiply_comm hm (square_lt hred hhlt) (square_lt hred hu),
        ← multiply_xor_right]
      have heq2 : square F (htrAux F ((F.m - 1) / 2) v v)
          ^^^ htrAux F ((F.m - 1) / 2) v v = trSum F v ^^^ v := by
        have h3 : square F (htrAux F ((F.m - 1) / 2) v v)
            ^^^ htrAux F ((F.m - 1) / 2) v v ^^^ v ^^^ v
            = trSum F v ^^^ v := by
          rw [htr_equation hm2 hodd hred ht hvlt]
        rw [Nat.xor_assoc (square F (htrAux F ((F.m - 1) / 2) v v)
            ^^^ htrAux F ((F.m - 1) / 2) v v) v v,
          Nat.xor_self, Nat.xor_zero] at h3
        exact h3
      rw [heq2, trSum_eq_zero hm2 hred ht hker hvlt htv, Nat.zero_xor]
      rw [hv]
      rw [← multiply_assoc hm hred (square_lt hred hu) hw hplt2,
        multiply_comm hm (square_lt hred hu) hw,
        multiply_assoc hm hred hw (square_lt hred hu) hplt2,
        huinv, multiply_one_right hm hw, Nat.xor_self]
    refine ⟨multiply F (htrAux F ((F.m - 1) / 2) v v) u, hpos, hcomm, hsol,
      ?_, ?_⟩
    · have ha : square F (multiply F (htrAux F ((F.m - 1) / 2) v v) u ^^^ u)
          = square F (multiply F (htrAux F ((F.m - 1) / 2) v v) u)
            ^^^ square F u :=
        square_xor hm hzlt hu
      have hb2 : multiply F u (multiply F (htrAux F ((F.m - 1) / 2) v v) u ^^^ u)
          = multiply F u (multiply F (htrAux F ((F.m - 1) / 2) v v) u)
            ^^^ square F u := by
        rw [multiply_xor_right]
        rfl
      rw [ha, hb2]
      have hshuffle : ∀ a b c d : Nat,
          (a ^^^ d) ^^^ (b ^^^ d) ^^^ c = (a ^^^ b ^^^ c) ^^^ (d ^^^ d) := by
        intro a b c d
        simp [Nat.xor_assoc, Nat.xor_comm, GF2mField.xor_left_comm]
      rw [hshuffle, hsol, Nat.xor_self]
      rfl
    · intro hcontra
      apply hu0
      have h1 : multiply F (htrAux F ((F.m - 1) / 2) v v) u
          ^^^ (multiply F (htrAux F ((F.m - 1) / 2) v v) u ^^^ u)
          = multiply F (htrAux F ((F.m - 1) / 2) v v) u
          ^^^ multiply F (htrAux F ((F.m - 1) / 2) v v) u := by
        rw [hcontra]
      rw [← Nat.xor_assoc, Nat.xor_self, Nat.zero_xor] at h1
      exact h1

/-- Witness for the C6 theorem: the GF(2^163) field of the M-163 parameter
set with w = 1, u = 1 (so v = 1); the Frobenius and kernel hypotheses are
the proved facts `frob163_fact` and `ker163`. -/
theorem solve_quadratic_contract_witness :
    (∀ count z?, solve_quadratic F163 1 1 = .ok (count, z?) →
      (count = 2 ↔ trace F163 1 = 0)) ∧
    (∀ count z, solve_quadratic F163 1 1 = .ok (count, some z) →
      square F163 z ^^^ z ^^^ 1 = 0) ∧
    ((1:Nat) ≠ 0 → trace F163 1 ≠ 0 → solve_quadratic F163 1 1 = .ok (0, none)) ∧
    ((1:Nat) ≠ 0 → trace F163 1 = 0 →
      ∃ z, solve_quadratic F163 1 1 = .ok (2, some z) ∧
        z = multiply F163 1 (htrAux F163 ((F163.m - 1) / 2) 1 1) ∧
        square F163 z ^^^ multiply F163 1 z ^^^ 1 = 0 ∧
        square F163 (z ^^^ 1) ^^^ multiply F163 1 (z ^^^ 1) ^^^ 1 = 0 ∧
        z ^^^ 1 ≠ z) :=
  solve_quadratic_contract F163 (by decide) (by decide) (by decide)
    frob163_fact ker163 1 (by decide) 1 (by decide) (by decide) 1
    (by rw [square_one (show 0 < F163.m by decide),
      power_one_elem (show 0 < F163.m by decide),
      multiply_one_left (show 0 < F163.m by decide) 1])
    (by rw [square_one (show 0 < F163.m by decide),
      power_one_elem (show 0 < F163.m by decide),
      multiply_one_left (show 0 < F163.m by decide) 1])

end DSTU
